import Mathlib

set_option maxRecDepth 100000

/-!
Verification development for the bookmarkos-tools repository
(`bin/bookmarkos/parser.py`, `bin/bookmarkos/metrics.py`,
`bin/bookmarkos/data/bookmarks.py`, `bin/bookmarkos/data/metrics.py`).

The Python sources are shallowly embedded: pure functions become Lean
functions, the mutable line queue of the parser becomes explicit
state-passing, Python exceptions become `Except`, Python `float`
percentages become `ℚ` (the divisions involved are exact), and the
recursion of the parser is driven by an explicit fuel parameter (the
fuel-sufficiency theorem for claim C10 shows the fuel is irrelevant).
Strings are processed as `List Char` so that every definition evaluates
inside the kernel; Python's `\w`, `\s` and string comparison are taken
at their ASCII meaning, which covers every character class the program
distinguishes.
-/

/-! ## Character classes and elementary string operations -/

/-- ASCII model of the regex class `\w` used by `EXTRACTION_RE` and
`ATTRIB_RE` in `data/bookmarks.py`. -/
def isWordChar (c : Char) : Bool :=
  c.isAlphanum || c = '_'

/-- ASCII model of the regex class `\s` (space, tab, newline, carriage
return, vertical tab, form feed). -/
def isSpaceChar (c : Char) : Bool :=
  c = ' ' || c = '\t' || c = '\n' || c = '\r' || c = '\x0b' || c = '\x0c'

/-- The regex `.` metacharacter: any character except a newline
(`re.DOTALL` is never set in the source). -/
def isDotChar (c : Char) : Bool :=
  c ≠ '\n'

/-- Code-point comparison of characters, the primitive of Python's
lexicographic string comparison. -/
def charLe (a b : Char) : Bool :=
  a.toNat ≤ b.toNat

/-- Python's lexicographic `<=` on strings, by code points. -/
def lexLe : List Char → List Char → Bool
  | [], _ => true
  | _ :: _, [] => false
  | a :: as, b :: bs => if a = b then lexLe as bs else decide (a.toNat < b.toNat)

/-- Fuel-driven worker for `pySplit`; every step consumes at least one
character, so fuel `s.length + 1` never runs out. -/
def pySplitAux (sep : List Char) : Nat → List Char → List (List Char)
  | 0, _ => [[]]
  | _ + 1, [] => [[]]
  | fuel + 1, c :: rest =>
    if sep ≠ [] ∧ sep.isPrefixOf (c :: rest) then
      [] :: pySplitAux sep fuel ((c :: rest).drop sep.length)
    else
      match pySplitAux sep fuel rest with
      | [] => [[c]]
      | l :: ls => (c :: l) :: ls

/-- Model of Python `str.split(sep)` for a fixed non-empty separator:
scan left to right for non-overlapping occurrences of `sep`.
In particular `pySplit sep [] = [[]]`, matching `''.split(sep) == ['']`. -/
def pySplit (sep : List Char) (s : List Char) : List (List Char) :=
  pySplitAux sep (s.length + 1) s

/-- Substring containment, the model of Python's `sub in line`. -/
def isSubIn (needle : List Char) : List Char → Bool
  | [] => needle.isEmpty
  | s@(_ :: rest) => needle.isPrefixOf s || isSubIn needle rest

/-- Model of Python `int(s)`: an optional sign followed by at least one
decimal digit (surrounding whitespace, underscores and non-decimal bases
do not occur in the inputs the program feeds to `int`). -/
def pyInt (s : List Char) : Option Int :=
  let digits (ds : List Char) : Option Nat :=
    if ds = [] ∨ ¬ ds.all Char.isDigit then none
    else some (ds.foldl (fun n c => 10 * n + (c.toNat - 48)) 0)
  match s with
  | '-' :: rest => (digits rest).map fun n => -(n : Int)
  | '+' :: rest => (digits rest).map fun n => (n : Int)
  | _ => (digits s).map fun n => (n : Int)

/-! ## Fragment extraction (`data/bookmarks.py`)

`EXTRACTION_RE = r'^<\w+\s+(.*?)>(.*)</\w+>$'`, used with `fullmatch`.
A full match decomposes the input as `<` + word-run + space-run +
`mid` + `</` + word-run + `>` where the closing tag is forced to be the
trailing `</\w+>` of the string (the greedy `(.*)` backtracks to the
last possible closer), group 1 is `mid` up to its first `'>'` (the lazy
`(.*?)`), and group 2 is the rest of `mid`; `.` never matches a newline,
so `mid` must be newline-free. -/

/-- Split off the closing tag `</\w+>` that a full match of
`EXTRACTION_RE` must end with; returns the part of the string before
the closer. -/
def splitCloser (r : List Char) : Option (List Char) :=
  match r.reverse with
  | '>' :: t =>
    let w := t.takeWhile isWordChar
    if w = [] then none
    else
      match t.dropWhile isWordChar with
      | '/' :: '<' :: midrev => some midrev.reverse
      | _ => none
  | _ => none

/-- Model of `EXTRACTION_RE.fullmatch(content)`, returning
`(group 1, group 2)` = (attribute block, inner text). -/
def extractMatch (cs : List Char) : Option (List Char × List Char) :=
  match cs with
  | '<' :: rest =>
    let w := rest.takeWhile isWordChar
    let r1 := rest.dropWhile isWordChar
    if w = [] then none
    else
      let sp := r1.takeWhile isSpaceChar
      let r2 := r1.dropWhile isSpaceChar
      if sp = [] then none
      else
        match splitCloser r2 with
        | none => none
        | some mid =>
          let g1 := mid.takeWhile (fun d => d ≠ '>')
          if g1.length = mid.length then none  -- no '>' in mid: group 1 cannot close
          else if mid.all isDotChar then some (g1, mid.drop (g1.length + 1))
          else none
  | _ => none

/-- Model of `ATTRIB_RE.findall(attr)` with
`ATTRIB_RE = r'(\w+)="(.*?)"'`: scan for non-overlapping matches, each a
maximal word-character run followed by `="`, then the shortest
newline-free run up to the next `"`. -/
def findAttribsAux : Nat → List Char → List (String × String)
  | 0, _ => []
  | _ + 1, [] => []
  | fuel + 1, c :: rest =>
    if isWordChar c then
      let w := c :: rest.takeWhile isWordChar
      match rest.dropWhile isWordChar with
      | '=' :: '"' :: r2 =>
        let v := r2.takeWhile (fun d => d ≠ '"')
        if v.length < r2.length ∧ v.all isDotChar then
          (String.mk w, String.mk v) :: findAttribsAux fuel (r2.drop (v.length + 1))
        else
          findAttribsAux fuel r2
      | r => findAttribsAux fuel r
    else
      findAttribsAux fuel rest

/-- Model of `ATTRIB_RE.findall(attr)` — every step of the worker
consumes at least one character, so fuel `cs.length + 1` never runs
out. -/
def findAttribs (cs : List Char) : List (String × String) :=
  findAttribsAux (cs.length + 1) cs

/-- Python `dict` update `d[k] = v`: overwrite in place if the key is
present, append otherwise. -/
def dictSet (d : List (String × String)) (k v : String) : List (String × String) :=
  match d with
  | [] => [(k, v)]
  | (k', v') :: rest => if k' = k then (k, v) :: rest else (k', v') :: dictSet rest k v

/-- Python `dict` lookup `d.get(k)`. -/
def dictGet (d : List (String × String)) (k : String) : Option String :=
  match d with
  | [] => none
  | (k', v') :: rest => if k' = k then some v' else dictGet rest k

/-- The `for [key, value] in ATTRIB_RE.findall(attr): attrib[key] = value`
loop of `parse_fragment`. -/
def buildAttrib (pairs : List (String × String)) : List (String × String) :=
  pairs.foldl (fun d kv => dictSet d kv.1 kv.2) []

/-- Errors of the embedded program.  Each constructor corresponds to one
`raise` site (or `KeyError` site) of the source; `ctx` is the
context-adding re-raise in `process_folder`, and `outOfFuel` is an
artifact of the fuel-driven embedding that theorem `c10...` proves
unreachable. -/
inductive PErr where
  | outOfFuel : PErr
  | fragment (content : String) : PErr          -- parse_fragment: "Parse-error on content"
  | missingAttr (key : String) : PErr           -- KeyError from attrib['...']
  | badInt (s : String) : PErr                  -- ValueError from int(...)
  | maxDepthDt (ln : Nat) : PErr                -- process_dt depth guard
  | unexpectedEnd (markup : String) (ln : Nat) : PErr
  | missingOpenDL (markup : String) (ln : Nat) (found : String) : PErr
  | unknownTag (tag : String) (ln : Nat) : PErr
  | badDt (ln : Nat) (line : String) : PErr     -- "Unrecognized <DT> format"
  | ddNoPrev (ln : Nat) : PErr                  -- "<DD> tag found but no previous bookmark"
  | ddMalformed (ln : Nat) (line : String) : PErr
  | ddAfterNonBookmark (ln : Nat) : PErr
  | unknownContent (ln : Nat) (line : String) : PErr
  | maxDepthFolder (ln : Nat) : PErr            -- process_folder depth guard
  | unterminated (folderName : String) : PErr   -- 'Closing <DL> for folder "..." not found'
  | ctx (folderName : String) (depth : Nat) (e : PErr) : PErr
  | tooShort (got : Nat) : PErr                 -- parse_bookmarks length check
  | missingRootDL (found : String) : PErr
  | unsupportedInput : PErr                     -- file/stream input branches, outside this model
deriving DecidableEq, Repr

instance exceptDecEq {ε α : Type} [DecidableEq ε] [DecidableEq α] :
    DecidableEq (Except ε α) := fun a b =>
  match a, b with
  | .ok x, .ok y => decidable_of_iff (x = y) (by simp)
  | .error x, .error y => decidable_of_iff (x = y) (by simp)
  | .ok _, .error _ => isFalse (by simp)
  | .error _, .ok _ => isFalse (by simp)

/-- Model of `parse_fragment`: extract the inner text and the attribute
dictionary from one pseudo-HTML fragment, raising `ValueError`
(`PErr.fragment`) when `EXTRACTION_RE` does not match. -/
def parse_fragment (content : String) : Except PErr (String × List (String × String)) :=
  match extractMatch content.data with
  | none => .error (.fragment content)
  | some (attr, text) => .ok (String.mk text, buildAttrib (findAttribs attr))

/-! ## The bookmark tree (`data/bookmarks.py`) -/

/-- The `Bookmark` dataclass. -/
structure Bookmark where
  name : String := ""
  created : Int := 0
  updated : Int := 0
  url : String := ""
  visited : Option Int := none
  tags : List String := []
  notes : Option String := none
  parent : List String := []
deriving DecidableEq, Repr

/-- A node of the folder tree: the `Folder`/`Bookmark` union stored in
`Folder.content`.  The `fd` constructor carries the fields of the
`Folder` dataclass. -/
inductive Item where
  | bm (b : Bookmark) : Item
  | fd (name : String) (created updated : Int) (depth : Nat)
       (parent : List String) (content : List Item) : Item

mutual

/-- Decidable equality for `Item` (the `deriving` handler does not cover
nested inductives). -/
def itemEqDec : (a b : Item) → Decidable (a = b)
  | .bm b1, .bm b2 => decidable_of_iff (b1 = b2) (by simp)
  | .bm _, .fd _ _ _ _ _ _ => isFalse (fun h => Item.noConfusion h)
  | .fd _ _ _ _ _ _, .bm _ => isFalse (fun h => Item.noConfusion h)
  | .fd n c u d p cs, .fd n' c' u' d' p' cs' =>
    have : Decidable (cs = cs') := itemsEqDec cs cs'
    decidable_of_iff (n = n' ∧ c = c' ∧ u = u' ∧ d = d' ∧ p = p' ∧ cs = cs') (by simp)

/-- Decidable equality for lists of `Item`. -/
def itemsEqDec : (as bs : List Item) → Decidable (as = bs)
  | [], [] => isTrue rfl
  | [], _ :: _ => isFalse (by simp)
  | _ :: _, [] => isFalse (by simp)
  | a :: as, b :: bs =>
    have h1 : Decidable (a = b) := itemEqDec a b
    have h2 : Decidable (as = bs) := itemsEqDec as bs
    decidable_of_iff (a = b ∧ as = bs) (by simp)

end

instance : DecidableEq Item := itemEqDec

/-- The `name` attribute shared by both node kinds (`Node.name`). -/
def Item.name : Item → String
  | .bm b => b.name
  | .fd n _ _ _ _ _ => n

/-- Model of `str.split(', ')` on a `String`, as used for the `TAGS`
attribute. -/
def splitTags (s : String) : List String :=
  (pySplit (", ".data) s.data).map String.mk

/-- Model of `Bookmark.fill`: build a bookmark from an `A` fragment.
`KeyError` on a missing `HREF`/`ADD_DATE`/`LAST_MODIFIED` becomes
`PErr.missingAttr`; a non-integer timestamp becomes `PErr.badInt`. -/
def Bookmark.fill (markup : String) : Except PErr Bookmark := do
  let (text, attrib) ← parse_fragment markup
  let url ← match dictGet attrib "HREF" with
    | none => .error (.missingAttr "HREF")
    | some u => pure u
  let addDate ← match dictGet attrib "ADD_DATE" with
    | none => .error (.missingAttr "ADD_DATE")
    | some s => pure s
  let created ← match pyInt addDate.data with
    | none => .error (.badInt addDate)
    | some n => pure n
  let lastMod ← match dictGet attrib "LAST_MODIFIED" with
    | none => .error (.missingAttr "LAST_MODIFIED")
    | some s => pure s
  let updated ← match pyInt lastMod.data with
    | none => .error (.badInt lastMod)
    | some n => pure n
  let visited ← match dictGet attrib "LAST_VISIT" with
    | none => pure none
    | some s =>
      match pyInt s.data with
      | none => .error (.badInt s)
      | some n => pure (some n)
  let tags := splitTags ((dictGet attrib "TAGS").getD "")
  return { name := text, url := url, created := created, updated := updated,
           visited := visited, tags := tags, notes := none, parent := [] }

/-- Model of `Folder.fill`: the `(name, created, updated)` header data of
a folder.  An empty markup (the root) keeps the zero defaults. -/
def Folder.fill (markup : String) : Except PErr (String × Int × Int) :=
  if markup.data = [] then .ok ("", 0, 0)
  else do
    let (text, attrib) ← parse_fragment markup
    let addDate ← match dictGet attrib "ADD_DATE" with
      | none => .error (.missingAttr "ADD_DATE")
      | some s => pure s
    let created ← match pyInt addDate.data with
      | none => .error (.badInt addDate)
      | some n => pure n
    let lastMod ← match dictGet attrib "LAST_MODIFIED" with
      | none => .error (.missingAttr "LAST_MODIFIED")
      | some s => pure s
    let updated ← match pyInt lastMod.data with
      | none => .error (.badInt lastMod)
      | some n => pure n
    return (text, created, updated)

/-! ## The parser (`parser.py`)

The shared mutable `deque` of lines becomes an explicit `List String`
threaded through the calls; `folder.content` accumulation becomes an
explicit list parameter of the `while` loop (`folder_loop`); the
recursion is driven by a fuel parameter that only `folder_loop`
consumes, one unit per loop iteration or nested folder. -/

/-- `MAX_NESTING_DEPTH` from `parser.py`. -/
def MAX_NESTING_DEPTH : Nat := 100

/-- `ROOT_DL_TAG` from `parser.py`. -/
def ROOT_DL_TAG : String := "<DL><p>"

/-- `HEADER_LINES` from `parser.py`. -/
def HEADER_LINES : Nat := 4

/-- The per-depth end marker `'    ' * depth + '</DL><p>'`. -/
def endMarkerFor (depth : Nat) : String :=
  String.mk (List.replicate (4 * depth) ' ') ++ "</DL><p>"

/-- Model of `DT_PATTERN.fullmatch(line)` with
`DT_PATTERN = r'^\s+<DT>(<(A|H3) .*>)$'`; returns `(group 1, group 2)` =
(the `<A ...>`/`<H3 ...>` markup, the tag name). -/
def matchDT (line : String) : Option (String × String) :=
  let cs := line.data
  let ws := cs.takeWhile isSpaceChar
  let r := cs.dropWhile isSpaceChar
  let tail (pfx : List Char) : Bool :=
    -- after `<DT><A ` / `<DT><H3 `, the rest must be `.*>` up to end of line
    pfx.isPrefixOf r &&
      (let rest := r.drop pfx.length
       rest ≠ [] && rest.getLast? = some '>' && rest.dropLast.all isDotChar)
  if ws = [] then none
  else if tail "<DT><A ".data then some (String.mk (r.drop 4), "A")
  else if tail "<DT><H3 ".data then some (String.mk (r.drop 4), "H3")
  else none

/-- Model of `DD_PATTERN.fullmatch(line)` with
`DD_PATTERN = r'^\s+<DD>(.*)$'`; returns group 1, the notes text. -/
def matchDD (line : String) : Option String :=
  let cs := line.data
  let ws := cs.takeWhile isSpaceChar
  let r := cs.dropWhile isSpaceChar
  if ws = [] then none
  else if ("<DD>".data).isPrefixOf r then
    let g := r.drop 4
    if g.all isDotChar then some (String.mk g) else none
  else none

/-- Model of `DL_OPEN_PATTERN.fullmatch(line)` with
`DL_OPEN_PATTERN = r'^\s+<DL><p>$'`. -/
def matchDLOpen (line : String) : Bool :=
  let cs := line.data
  cs.takeWhile isSpaceChar ≠ [] && cs.dropWhile isSpaceChar = "<DL><p>".data

/-- Whether a Python exception is a `ValueError` (caught and wrapped by
the `try`/`except ValueError` in `process_folder`).  `missingAttr` is a
`KeyError` and passes through unwrapped; `outOfFuel` is the fuel
artifact and is kept unwrapped so it stays recognizable. -/
def PErr.isValueErr : PErr → Bool
  | .outOfFuel => false
  | .missingAttr _ => false
  | _ => true

/-- The context-adding re-raise
`raise ValueError(f'Error processing "{folder.name}" at depth {len(parent)}: {e}')`. -/
def wrapCtx (name : String) (d : Nat) (e : PErr) : PErr :=
  if e.isValueErr then .ctx name d e else e

/-- The stable sort `folder.content.sort(key=attrgetter('name'))`
(Python's sort is stable; `insertionSort` is the stable sort that
evaluates inside the kernel). -/
def sortContent (content : List Item) : List Item :=
  content.insertionSort (fun a b => lexLe a.name.data b.name.data = true)

/-- Model of `process_dd`: attach a notes line to the most recent
bookmark of the folder content. -/
def process_dd (line : String) (content : List Item) (ln : Nat) :
    Except PErr (List Item) :=
  if content = [] then .error (.ddNoPrev ln)
  else
    match matchDD line with
    | none => .error (.ddMalformed ln line)
    | some notes =>
      match content.getLast? with
      | some (.bm b) =>
        -- `if notes:` — only a non-empty notes string is stored
        if notes ≠ "" then .ok (content.dropLast ++ [.bm { b with notes := some notes }])
        else .ok content
      | _ => .error (.ddAfterNonBookmark ln)  -- last item is a folder ("<DD> after non-bookmark"); the list is non-empty here

mutual

/-- Model of `process_dt`: handle one `<DT>` line, appending the new
bookmark or recursively-built folder to `content`; returns the updated
content and the remaining queue.  Every function of this mutual block
consumes one unit of fuel, which keeps the recursion structural; the
fuel-sufficiency theorem for claim C10 shows `outOfFuel` is unreachable
from `parse_bookmarks`. -/
def process_dt : Nat → String → List String → List Item → List String → Nat →
    Except PErr (List Item × List String)
  | 0, _, _, _, _, _ => .error .outOfFuel
  | fuel + 1, line, queue, content, parent, ln =>
    if parent.length > MAX_NESTING_DEPTH then .error (.maxDepthDt ln)
    else
      match matchDT line with
      | none => .error (.badDt ln line)
      | some (markup, tag) =>
        if tag = "A" then
          match Bookmark.fill markup with
          | .error e => .error e
          | .ok b => .ok (content ++ [.bm { b with parent := parent }], queue)
        else if tag = "H3" then
          match queue with
          | [] => .error (.unexpectedEnd markup ln)
          | next :: rest =>
            if matchDLOpen next then
              match process_folder fuel markup rest parent (ln + 1) with
              | .error e => .error e
              | .ok (sub, q') => .ok (content ++ [sub], q')
            else .error (.missingOpenDL markup ln next)
        else .error (.unknownTag tag ln)
  termination_by structural fuel => fuel

/-- Model of `process_folder`: build one folder from the queue, starting
just after its opening `<DL><p>` line. -/
def process_folder : Nat → String → List String → List String → Nat →
    Except PErr (Item × List String)
  | 0, _, _, _, _ => .error .outOfFuel
  | fuel + 1, text, queue, path, ln =>
    if path.length > MAX_NESTING_DEPTH then .error (.maxDepthFolder ln)
    else
      match Folder.fill text with
      | .error e => .error e
      | .ok (name, created, updated) =>
        folder_loop fuel name created updated path.length path (path ++ [name])
          (endMarkerFor path.length) [] false queue ln
  termination_by structural fuel => fuel

/-- The `while queue:` loop of `process_folder`.  `ln` is the running
`current_line_number`; reaching the end marker sorts the accumulated
content and returns.  The source keeps a `line` sentinel across
iterations: it is reset to `None` at the end of a fully processed
iteration but the empty-line `continue` skips that reset, leaving the
falsy `''` in `line`; the post-loop check `if line is None` therefore
raises `'Closing <DL> for folder ... not found'` only when the queue
was exhausted with the sentinel still `None`.  `blank` models the
sentinel at the loop check: `true` iff the previously popped line was
empty (sentinel `''`), so exhaustion right after an empty line returns
the sorted folder as if it had been properly closed. -/
def folder_loop : Nat → String → Int → Int → Nat → List String → List String →
    String → List Item → Bool → List String → Nat → Except PErr (Item × List String)
  | 0, _, _, _, _, _, _, _, _, _, _, _ => .error .outOfFuel
  | fuel + 1, fName, fCreated, fUpdated, depth, fParent, parent, endMarker,
      content, blank, queue, ln =>
    match queue with
    | [] =>
      if blank then
        .ok (.fd fName fCreated fUpdated depth fParent (sortContent content), [])
      else .error (.unterminated fName)
    | line :: rest =>
      if line = endMarker then
        .ok (.fd fName fCreated fUpdated depth fParent (sortContent content), rest)
      else if line = "" then
        folder_loop fuel fName fCreated fUpdated depth fParent parent endMarker
          content true rest (ln + 1)
      else if isSubIn "<DT>".data line.data then
        match process_dt fuel line rest content parent (ln + 1) with
        | .error e => .error (wrapCtx fName parent.length e)
        | .ok (content', q') =>
          folder_loop fuel fName fCreated fUpdated depth fParent parent endMarker
            content' false q' (ln + 1)
      else if isSubIn "<DD>".data line.data then
        match process_dd line content (ln + 1) with
        | .error e => .error (wrapCtx fName parent.length e)
        | .ok content' =>
          folder_loop fuel fName fCreated fUpdated depth fParent parent endMarker
            content' false rest (ln + 1)
      else .error (wrapCtx fName parent.length (.unknownContent (ln + 1) line))
  termination_by structural fuel => fuel

end

/-- Model of `parse_bookmarks` on the in-memory string branch (the
stream and file-path branches delegate to I/O collaborators outside
this embedding).  The fuel `3 * n + 2` is sufficient; see the
fuel-sufficiency theorem for claim C10. -/
def parse_bookmarks (content : String) : Except PErr Item :=
  if ¬ ("<!DOCTYPE".data.isPrefixOf content.data) then .error .unsupportedInput
  else
    let data := (pySplit ['\n'] content.data).map String.mk
    if data.length < HEADER_LINES + 1 then .error (.tooShort data.length)
    else
      let lines := data.drop HEADER_LINES
      match lines with
      | [] => .error (.missingRootDL "EOF")
      | l0 :: rest =>
        if l0 ≠ ROOT_DL_TAG then .error (.missingRootDL l0)
        else
          match process_folder (3 * rest.length + 2) "" rest [] (HEADER_LINES + 1) with
          | .error e => .error e
          | .ok (it, _) => .ok it

/-- Whether the error (possibly wrapped in context frames) is the
unterminated-folder error naming folder `m`. -/
def PErr.mentionsUnterminated : PErr → String → Bool
  | .unterminated n, m => n == m
  | .ctx _ _ e, m => e.mentionsUnterminated m
  | _, _ => false

/-! ## Metrics data model (`data/metrics.py`)

Python `set` fields become `Finset`, `Counter` fields become assoc lists
in key-insertion order with distinct keys (the invariant `Counter`
maintains), `float` fields become `ℚ`. `new_bookmarks_by_date` and
`tags_by_date` (pure date formatting, untouched by the claims) are not
modelled. -/

/-- `Counter` lookup `c[k]` (when the key is absent Python returns 0 on
read; lookups in this development are all at present keys, so the
`Option` records presence). -/
def cntGet (c : List (String × Nat)) (k : String) : Option Nat :=
  match c with
  | [] => none
  | (k', v') :: rest => if k' = k then some v' else cntGet rest k

/-- `Counter` increment `c[k] += v`: add into the existing entry, or
append a fresh key at the end (Python dicts keep insertion order). -/
def cntIncr (c : List (String × Nat)) (k : String) (v : Nat) : List (String × Nat) :=
  match c with
  | [] => [(k, v)]
  | (k', v') :: rest => if k' = k then (k', v' + v) :: rest else (k', v') :: cntIncr rest k v

/-- `Counter` assignment `c[k] = v`. -/
def cntSet (c : List (String × Nat)) (k : String) (v : Nat) : List (String × Nat) :=
  match c with
  | [] => [(k, v)]
  | (k', v') :: rest => if k' = k then (k', v) :: rest else (k', v') :: cntSet rest k v

/-- `Counter.update(other)`: pointwise addition. -/
def cntUpdate (c other : List (String × Nat)) : List (String × Nat) :=
  other.foldl (fun acc kv => cntIncr acc kv.1 kv.2) c

/-- The `CoreMetrics` dataclass; the identifier type `α` is the folder
path (`String`), the bookmark creation timestamp (`Int`) or the tag name
(`String`). -/
structure CoreMetrics (α : Type) where
  count : Int := 0
  items : Finset α := ∅
  added : Finset α := ∅
  added_count : Int := 0
  deleted : Finset α := ∅
  deleted_count : Int := 0
  delta : Int := 0
  delta_pct : ℚ := 0

/-- The `SizeMetrics` dataclass (`min_size` is initialised to
`sys.maxsize`). -/
structure SizeMetrics where
  sizes : List (String × Nat) := []
  min_size : Nat := 9223372036854775807
  max_size : Nat := 0
  avg_size : ℚ := 0
  top_n : List (Nat × Nat × List String) := []
  bottom_n : List (Nat × Nat × List String) := []

/-- `FoldersMetrics = CoreMetrics + SizeMetrics + max_depth`, by
composition instead of dataclass multiple inheritance. -/
structure FoldersMetrics where
  core : CoreMetrics String := {}
  size : SizeMetrics := {}
  max_depth : Nat := 0

/-- `BookmarksMetrics = CoreMetrics + new bookmark aggregates`. -/
structure BookmarksMetrics where
  core : CoreMetrics Int := {}
  new_bookmarks : List Bookmark := []

/-- `TagsMetrics = CoreMetrics + SizeMetrics + unique_tags_count`. -/
structure TagsMetrics where
  core : CoreMetrics String := {}
  size : SizeMetrics := {}
  unique_tags_count : Nat := 0

/-- The top-level `Metrics` dataclass. -/
structure Metrics where
  folders : FoldersMetrics := {}
  bookmarks : BookmarksMetrics := {}
  tags : TagsMetrics := {}

/-! ## Metrics gathering (`metrics.py`) -/

/-- `'::'.join(path)`. -/
def joinPath : List String → String
  | [] => ""
  | [p] => p
  | p :: rest => p ++ "::" ++ joinPath rest

/-- The content of a folder node (`node.content`). -/
def Item.contentOf : Item → List Item
  | .bm _ => []
  | .fd _ _ _ _ _ c => c

/-- The bookmark elements of a content list, in order
(`[x for x in node.content if isinstance(x, Bookmark)]`). -/
def bookmarksOf (content : List Item) : List Bookmark :=
  content.filterMap fun i => match i with | .bm b => some b | _ => none

/-- The body of the `for bookmark in bookmarks:` loop of
`_gather_metrics`: bookmark identity, tag count extrema, tag identity
set, and per-tag usage histogram. -/
def gatherBookmark (m : Metrics) (b : Bookmark) : Metrics :=
  let m := { m with bookmarks.core.items := insert b.created m.bookmarks.core.items }
  let numTags := b.tags.length
  let m := { m with
    tags.core.count := m.tags.core.count + numTags,
    tags.size.max_size := max m.tags.size.max_size numTags,
    tags.size.min_size := min m.tags.size.min_size numTags }
  b.tags.foldl
    (fun m tag =>
      { m with
        tags.core.items := insert tag m.tags.core.items,
        tags.size.sizes := cntIncr m.tags.size.sizes tag 1 })
    m

mutual

/-- Model of `_gather_metrics` (the recursive gatherer): update `m` with
this folder's contribution and return the bottom-up `folder_sizes`
counter of direct-bookmark counts.  The source is only ever called on
`Folder` nodes; a `Bookmark` argument is a no-op. -/
def gather_metrics_rec : Item → List String → Metrics → Metrics × List (String × Nat)
  | .bm _, _, m => (m, [])
  | .fd _ _ _ depth _ content, path, m =>
    let folder_id := joinPath path
    let m := { m with folders.max_depth := max m.folders.max_depth depth }
    let folder_size := content.length
    let bookmarks := bookmarksOf content
    let bookmark_count := bookmarks.length
    let m := { m with
      folders.core.count := m.folders.core.count + 1,
      folders.core.items := insert folder_id m.folders.core.items,
      folders.size.sizes := cntSet m.folders.size.sizes folder_id folder_size,
      folders.size.max_size := max m.folders.size.max_size folder_size,
      folders.size.min_size := min m.folders.size.min_size folder_size }
    let m := { m with bookmarks.core.count := m.bookmarks.core.count + bookmarks.length }
    let m := bookmarks.foldl gatherBookmark m
    gatherSubfolders content path m (cntSet [] folder_id bookmark_count)

/-- The `for subfolder in subfolders:` recursion of `_gather_metrics`
(bookmark elements are skipped, like the `isinstance` filter). -/
def gatherSubfolders : List Item → List String → Metrics → List (String × Nat) →
    Metrics × List (String × Nat)
  | [], _, m, fsizes => (m, fsizes)
  | .bm _ :: rest, path, m, fsizes => gatherSubfolders rest path m fsizes
  | .fd n c u d p cnt :: rest, path, m, fsizes =>
    let r := gather_metrics_rec (.fd n c u d p cnt) (path ++ [n]) m
    gatherSubfolders rest path r.1 (cntUpdate fsizes r.2)

end

/-- Arithmetic failures (`ZeroDivisionError`). -/
inductive ArithErr where
  | divByZero : ArithErr
deriving DecidableEq, Repr

/-- Python float division, which raises `ZeroDivisionError` on a zero
denominator. -/
def pyDiv (a b : ℚ) : Except ArithErr ℚ :=
  if b = 0 then .error .divByZero else .ok (a / b)

/-- Model of `average_size` on the `sizes` counter of a `SizeMetrics`
(the `sizes is None` guard of the source cannot fire in this program:
every caller passes a dataclass whose `sizes` is a `Counter`). -/
def average_size (sizes : List (String × Nat)) : Except ArithErr ℚ :=
  let count := sizes.length
  if count = 0 then .ok 0
  else
    let total := (sizes.map (fun p => p.2)).sum
    pyDiv (total : ℚ) (count : ℚ)

/-! ## Rank aggregation (`get_largest_and_smallest`) -/

/-- `sorted(sizes.items(), key=itemgetter(1), reverse=True)`: stable
sort, descending by count. -/
def sortDescBySize (l : List (String × Nat)) : List (String × Nat) :=
  l.insertionSort (fun a b => b.2 ≤ a.2)

/-- `itertools.groupby(..., key=itemgetter(1))`: maximal runs of equal
counts (built back to front: an element joins the following run when the
counts agree, otherwise it opens a new run). -/
def runs : List (String × Nat) → List (List (String × Nat))
  | [] => []
  | x :: xs =>
    match runs xs with
    | [] => [[x]]
    | [] :: gs => [x] :: [] :: gs  -- unreachable: runs never emits an empty group
    | (y :: g) :: gs =>
      if x.2 = y.2 then (x :: y :: g) :: gs else [x] :: (y :: g) :: gs

/-- `sorted(names)` with Python's lexicographic string order. -/
def sortNames (l : List String) : List String :=
  l.insertionSort (fun a b => lexLe a.data b.data = true)

/-- The ranking loop of `get_largest_and_smallest`: each group becomes
`(current_rank, size, sorted names)` and the rank advances by the group
size (competition ranking). -/
def rankGroups (rank : Nat) : List (List (String × Nat)) → List (Nat × Nat × List String)
  | [] => []
  | [] :: gs => rankGroups rank gs  -- unreachable: `runs` yields non-empty groups
  | ((n, size) :: g) :: gs =>
    (rank, size, sortNames (((n, size) :: g).map (fun p => p.1))) ::
      rankGroups (rank + ((n, size) :: g).length) gs

/-- The extraction loop of `get_largest_and_smallest`: accumulate whole
groups while the running name count is below `n`, and stop as soon as it
reaches or exceeds `n` (the overshooting tie group is kept). -/
def takeLoop (n : Nat) : Nat → List (Nat × Nat × List String) → List (Nat × Nat × List String)
  | _, [] => []
  | cnt, g :: gs =>
    if cnt < n then
      g :: (if cnt + g.2.2.length ≥ n then [] else takeLoop n (cnt + g.2.2.length) gs)
    else []

/-- Model of `get_largest_and_smallest`. -/
def get_largest_and_smallest (sizes : List (String × Nat)) (n : Nat) :
    List (Nat × Nat × List String) × List (Nat × Nat × List String) :=
  if sizes = [] then ([], [])
  else
    let ranked_with_ties := rankGroups 1 (runs (sortDescBySize sizes))
    (takeLoop n 0 ranked_with_ties, (takeLoop n 0 ranked_with_ties.reverse).reverse)

/-! ## The Differ (`metrics.py`, lines 206-337) -/

mutual

/-- Structural weight of an item, the termination measure of the BFS in
`all_bookmarks_sorted`. -/
def itemWeight : Item → Nat
  | .bm _ => 1
  | .fd _ _ _ _ _ content => 1 + listWeight content

/-- Total structural weight of a queue of items. -/
def listWeight : List Item → Nat
  | [] => 0
  | i :: rest => itemWeight i + listWeight rest

end

theorem listWeight_append (a b : List Item) :
    listWeight (a ++ b) = listWeight a + listWeight b := by
  induction a with
  | nil => simp [listWeight]
  | cons x rest ih => simp [listWeight, ih]; omega

/-- Fuel-driven worker for the BFS queue loop: each step consumes
exactly one unit of `listWeight`, so starting fuel `listWeight queue`
runs out exactly when the queue empties. -/
def bfsCollectAux : Nat → List Item → List Bookmark
  | 0, _ => []
  | _ + 1, [] => []
  | fuel + 1, .bm b :: rest => b :: bfsCollectAux fuel rest
  | fuel + 1, .fd _ _ _ _ _ content :: rest => bfsCollectAux fuel (rest ++ content)

/-- The BFS queue loop of `all_bookmarks_sorted`: pop from the front,
collect bookmarks, push folder contents at the back. -/
def bfsCollect (queue : List Item) : List Bookmark :=
  bfsCollectAux (listWeight queue) queue

/-- Model of `all_bookmarks_sorted`: all bookmarks of the tree, sorted
by creation time (stable sort on the BFS order). -/
def all_bookmarks_sorted (data : Item) : List Bookmark :=
  (bfsCollect data.contentOf).insertionSort (fun a b => a.created ≤ b.created)

/-- `bisect.bisect_left(a, x, key=attrgetter('created'))` on the sorted
bookmark list: the leftmost insertion point, i.e. the length of the
maximal prefix with `created < x`. -/
def bisect_left (l : List Bookmark) (x : Int) : Nat :=
  (l.takeWhile (fun b => decide (b.created < x))).length

/-- The `IndexError` that `all_bookmarks[pos]` raises when `pos` is past
the end of the list. -/
inductive AggErr where
  | indexErr (pos : Nat) : AggErr
deriving DecidableEq, Repr

/-- `sorted(s)` for a Python set of integers: the ascending list of its
elements (defined by lifting the kernel-evaluable `insertionSort` over
the underlying multiset). -/
def finsetSorted (s : Finset Int) : List Int :=
  Quotient.liftOn s.val (fun l => l.insertionSort (· ≤ ·)) fun l₁ l₂ h => by
    haveI : IsAntisymm Int (· ≤ ·) := ⟨fun _ _ h1 h2 => le_antisymm h1 h2⟩
    refine List.eq_of_perm_of_sorted (r := (· ≤ ·)) ?_ ?_ ?_
    · exact ((l₁.perm_insertionSort _).trans h).trans (l₂.perm_insertionSort _).symm
    · exact List.sorted_insertionSort _ l₁
    · exact List.sorted_insertionSort _ l₂

/-- The `for bookmark_id in sorted(metrics.bookmarks.added):` loop of
`_generate_aggregated_metrics`, looking each timestamp up by binary
search and indexing into the sorted bookmark list. -/
def collectNew (allBks : List Bookmark) : List Int → Except AggErr (List Bookmark)
  | [] => .ok []
  | t :: rest =>
    let pos := bisect_left allBks t
    match allBks.get? pos with
    | none => .error (.indexErr pos)
    | some b => (collectNew allBks rest).map (fun l => b :: l)

/-- Model of `_generate_aggregated_metrics` (its by-date derivations,
pure date formatting, are not modelled). -/
def generate_aggregated_metrics (this_week : Item) (m : Metrics) :
    Except AggErr Metrics :=
  match collectNew (all_bookmarks_sorted this_week)
      (finsetSorted m.bookmarks.core.added) with
  | .error e => .error e
  | .ok nbs => .ok { m with bookmarks.new_bookmarks := nbs }

/-- Model of `_calculate_delta_metrics`: returns
`(delta, delta_pct, added, added_count, deleted, deleted_count)`. -/
def calculate_delta_metrics {α : Type} [DecidableEq α]
    (current_count previous_count : Int) (current_items : Finset α)
    (previous_items : Option (Finset α)) :
    Int × ℚ × Finset α × Int × Finset α × Int :=
  let delta := current_count - previous_count
  let delta_pct : ℚ :=
    if previous_count = 0 then (if current_count ≠ 0 then 1 else 0)
    else (delta : ℚ) / (previous_count : ℚ)
  match previous_items with
  | some prev =>
    (delta, delta_pct, current_items \ prev, ((current_items \ prev).card : Int),
     prev \ current_items, ((prev \ current_items).card : Int))
  | none => (delta, delta_pct, current_items, (current_items.card : Int), ∅, 0)

/-- The three per-category blocks of `differentiate_metrics` (before the
aggregation step): bookmarks and folders compare `count`, tags compare
the unique-item counts `len(items)`. -/
def differentiate_deltas (these : Metrics) (those : Option Metrics) : Metrics :=
  let bprev_count := (those.map fun t => t.bookmarks.core.count).getD 0
  let bprev_items := those.map fun t => t.bookmarks.core.items
  let rb := calculate_delta_metrics these.bookmarks.core.count bprev_count
    these.bookmarks.core.items bprev_items
  let these := { these with
    bookmarks.core.delta := rb.1, bookmarks.core.delta_pct := rb.2.1,
    bookmarks.core.added := rb.2.2.1, bookmarks.core.added_count := rb.2.2.2.1,
    bookmarks.core.deleted := rb.2.2.2.2.1, bookmarks.core.deleted_count := rb.2.2.2.2.2 }
  let fprev_count := (those.map fun t => t.folders.core.count).getD 0
  let fprev_items := those.map fun t => t.folders.core.items
  let rf := calculate_delta_metrics these.folders.core.count fprev_count
    these.folders.core.items fprev_items
  let these := { these with
    folders.core.delta := rf.1, folders.core.delta_pct := rf.2.1,
    folders.core.added := rf.2.2.1, folders.core.added_count := rf.2.2.2.1,
    folders.core.deleted := rf.2.2.2.2.1, folders.core.deleted_count := rf.2.2.2.2.2 }
  let current_unique_count : Int := these.tags.core.items.card
  let tprev_count := (those.map fun t => (t.tags.core.items.card : Int)).getD 0
  let tprev_items := those.map fun t => t.tags.core.items
  let rt := calculate_delta_metrics current_unique_count tprev_count
    these.tags.core.items tprev_items
  { these with
    tags.core.delta := rt.1, tags.core.delta_pct := rt.2.1,
    tags.core.added := rt.2.2.1, tags.core.added_count := rt.2.2.2.1,
    tags.core.deleted := rt.2.2.2.2.1, tags.core.deleted_count := rt.2.2.2.2.2 }

/-- Model of `differentiate_metrics`: the delta fields are assigned on
`these` first, then the aggregated values are generated (the source
mutates in place; here the updated `Metrics` is returned). -/
def differentiate_metrics (this_week : Item) (these : Metrics)
    (those : Option Metrics) : Except AggErr Metrics :=
  generate_aggregated_metrics this_week (differentiate_deltas these those)

/-- Model of `gather_metrics`: run the recursive gatherer from the root
with the path `['']`, compute averages, uniqueness count and the
top/bottom rankings. -/
def gather_metrics (week : Item) : Except ArithErr Metrics :=
  let r := gather_metrics_rec week [""] {}
  let m := r.1
  let folder_sizes := r.2
  match average_size m.tags.size.sizes with
  | .error e => .error e
  | .ok tagsAvg =>
    match average_size m.folders.size.sizes with
    | .error e => .error e
    | .ok foldersAvg =>
      let m := { m with
        tags.size.avg_size := tagsAvg,
        folders.size.avg_size := foldersAvg,
        tags.unique_tags_count := m.tags.core.items.card }
      let ftb := get_largest_and_smallest folder_sizes 5
      let ttb := get_largest_and_smallest m.tags.size.sizes 25
      .ok { m with
        folders.size.top_n := ftb.1, folders.size.bottom_n := ftb.2,
        tags.size.top_n := ttb.1, tags.size.bottom_n := ttb.2 }

/-! ## Statement-side definitions for the claims -/

/-- A tree with bookmarks created at 5 and 9 (no bookmark created at 7). -/
def treeC4w : Item := Item.fd "" 0 0 0 []
  [Item.bm { name := "B5", created := 5 }, Item.bm { name := "B9", created := 9 }]

/-- A tree with a single bookmark created at 5. -/
def treeC4 : Item := Item.fd "" 0 0 0 [] [Item.bm { name := "B", created := 5 }]

/-- Current metrics whose bookmark identity set holds the timestamp 7,
which no bookmark of `treeC4` carries. -/
def theseC4 : Metrics := { bookmarks := { core := { count := 1, items := {7} } } }

/-- Adjacent non-decreasing name order (Python's lexicographic `<=` on
the raw name strings), the sortedness property of a folder's `content`. -/
def pairwiseNameLe : List Item → Bool
  | [] => true
  | [_] => true
  | a :: b :: rest => lexLe a.name.data b.name.data && pairwiseNameLe (b :: rest)

mutual

/-- Every folder of the subtree (the node itself included, when it is a
folder) has its `content` sorted by name. -/
def sortedTreeB : Item → Bool
  | .bm _ => true
  | .fd _ _ _ _ _ content => pairwiseNameLe content && allSortedB content

/-- `sortedTreeB` for every item of a list. -/
def allSortedB : List Item → Bool
  | [] => true
  | i :: rest => sortedTreeB i && allSortedB rest

end

/-- A concrete export whose inner folder "Inner" is never closed. -/
def docC7 : String :=
  "<!DOCTYPE x>\nm\nt\nh\n<DL><p>\n    <DT><H3 ADD_DATE=\"1\" LAST_MODIFIED=\"2\">Inner</H3>\n    <DL><p>\n        <DT><A HREF=\"u\" ADD_DATE=\"3\" LAST_MODIFIED=\"4\">B</A>"

/-- A concrete unterminated export that ends with a newline: the root
folder is never closed (no `</DL><p>` anywhere), but the trailing
newline makes the last queue entry the empty string. -/
def docC7ok : String :=
  "<!DOCTYPE x>\nm\nt\nh\n<DL><p>\n    <DT><A HREF=\"u\" ADD_DATE=\"3\" LAST_MODIFIED=\"4\">B</A>\n"

mutual

/-- All folders of the subtree, paired with their path (the path of the
argument node itself included when it is a folder), in traversal order. -/
def foldersWithPaths : Item → List String → List (List String × Item)
  | .bm _, _ => []
  | .fd n c u d p cnt, path => (path, .fd n c u d p cnt) :: foldersWithPathsList cnt path

/-- `foldersWithPaths` over the folder elements of a content list. -/
def foldersWithPathsList : List Item → List String → List (List String × Item)
  | [], _ => []
  | .bm _ :: rest, path => foldersWithPathsList rest path
  | .fd n c u d p cnt :: rest, path =>
    foldersWithPaths (.fd n c u d p cnt) (path ++ [n]) ++ foldersWithPathsList rest path

end

/-- The number of direct `Bookmark` children of a node. -/
def directBookmarkCount (it : Item) : Nat :=
  (bookmarksOf it.contentOf).length

/-- Spec-side definition (refinement target, following the Rank
Aggregator wording of the spec): the distinct counts of the histogram in
descending order. -/
def specCounts (sizes : List (String × Nat)) : List Nat :=
  ((sizes.map (fun p => p.2)).dedup).insertionSort (fun a b => b ≤ a)

/-- Spec-side definition: each distinct count becomes the group
`(rank, count, lexicographically sorted names with that count)`, the
rank being `1 +` the number of entries with a strictly larger count
(competition ranking). -/
def specGroups (sizes : List (String × Nat)) : List (Nat × Nat × List String) :=
  (specCounts sizes).map fun c =>
    (1 + (sizes.filter (fun p => c < p.2)).length, c,
     sortNames ((sizes.filter (fun p => p.2 = c)).map (fun p => p.1)))

/-- Spec-side definition: accumulate whole groups until the cumulative
number of names reaches or exceeds `n`, keeping the overshooting tie
group in full. -/
def specTake (n : Nat) : List (Nat × Nat × List String) → List (Nat × Nat × List String)
  | [] => []
  | g :: gs => g :: (if n ≤ g.2.2.length then [] else specTake (n - g.2.2.length) gs)

/-- The counts of a histogram list with consecutive duplicates
collapsed (the group keys that `runs` produces, in order). -/
def countsOf : List (String × Nat) → List Nat
  | [] => []
  | x :: xs =>
    match countsOf xs with
    | [] => [x.2]
    | c :: cs => if x.2 = c then c :: cs else x.2 :: c :: cs

/-- A small concrete export: the root holds one bookmark. -/
def docC6w : String :=
  "<!DOCTYPE x>\nm\nt\nh\n<DL><p>\n    <DT><A HREF=\"u\" ADD_DATE=\"3\" LAST_MODIFIED=\"4\">B</A>\n</DL><p>"

/-- The tree `parse_bookmarks docC6w` produces. -/
def treeC6w : Item :=
  .fd "" 0 0 0 []
    [ .bm { name := "B", created := 3, updated := 4, url := "u", visited := none,
            tags := [""], notes := none, parent := [""] } ]

/-- The keys of a counter, in order. -/
def cntKeys (c : List (String × Nat)) : List String :=
  c.map (fun p => p.1)

/-- The `folder_sizes` entry a folder contributes: its `::`-joined path
mapped to its direct-bookmark count. -/
def fsEntry (pf : List String × Item) : String × Nat :=
  (joinPath pf.1, directBookmarkCount pf.2)

/-- The `folders.sizes` entry a folder contributes: its `::`-joined path
mapped to `len(content)`. -/
def szEntry (pf : List String × Item) : String × Nat :=
  (joinPath pf.1, pf.2.contentOf.length)

/-- The subfolder of the C9 concrete tree: two direct bookmarks and one
empty subfolder (three direct children in all). -/
def treeC9wSub : Item :=
  .fd "Sub" 0 0 1 [""]
    [ .bm { name := "B", created := 2 },
      .bm { name := "C", created := 3 },
      .fd "Deep" 0 0 2 ["", "Sub"] [] ]

/-- A concrete tree with one bookmark and a nested subfolder at the
root, all `::`-joined folder paths distinct. -/
def treeC9w : Item :=
  .fd "" 0 0 0 [] [ .bm { name := "A", created := 1 }, treeC9wSub ]

/-! ## Helper lemmas -/

theorem dictGet_dictSet (d : List (String × String)) (k' v' k : String) :
    dictGet (dictSet d k' v') k = if k' = k then some v' else dictGet d k := by
  induction d with
  | nil => simp [dictGet, dictSet]
  | cons hd tl ih =>
    obtain ⟨kh, vh⟩ := hd
    by_cases h1 : kh = k'
    · subst h1
      by_cases h2 : kh = k <;> simp [dictGet, dictSet, h2]
    · simp only [dictSet, if_neg h1]
      by_cases h2 : kh = k
      · subst h2
        have h3 : ¬ k' = kh := fun h => h1 h.symm
        simp [dictGet, h3]
      · simp [dictGet, h2, ih]

theorem dictGet_foldl_dictSet (pairs : List (String × String)) (k : String) :
    ∀ (d : List (String × String)),
      dictGet (pairs.foldl (fun d kv => dictSet d kv.1 kv.2) d) k =
        pairs.foldl (fun a kv => if kv.1 = k then some kv.2 else a) (dictGet d k) := by
  induction pairs with
  | nil => intro d; rfl
  | cons hd tl ih =>
    intro d
    obtain ⟨kh, vh⟩ := hd
    simp only [List.foldl_cons]
    rw [ih (dictSet d kh vh), dictGet_dictSet]

theorem getLast?_cons_elim {α : Type} (a : α) (l : List α) :
    (a :: l).getLast? = match l.getLast? with
      | some v => some v
      | none => some a := by
  cases l with
  | nil => rfl
  | cons b l' =>
    rw [List.getLast?_cons_cons]
    cases h : (b :: l').getLast? with
    | some v => simp
    | none => exact absurd (List.getLast?_eq_none_iff.mp h) (by simp)

theorem foldl_lastOcc_eq_getLast (pairs : List (String × String)) (k : String) :
    ∀ (a : Option String),
      pairs.foldl (fun a kv => if kv.1 = k then some kv.2 else a) a =
        ((pairs.filter (fun p => p.1 = k)).map (fun p => p.2)).getLast?.elim a some := by
  induction pairs with
  | nil => intro a; rfl
  | cons hd tl ih =>
    intro a
    obtain ⟨kh, vh⟩ := hd
    rw [List.foldl_cons]
    by_cases h : kh = k
    · subst h
      have hstep : (if (kh, vh).1 = kh then some (kh, vh).2 else a) = some vh := by simp
      rw [hstep, ih]
      have hfil : (((kh, vh) :: tl).filter (fun p => p.1 = kh)) =
          (kh, vh) :: tl.filter (fun p => p.1 = kh) := by simp
      rw [hfil, List.map_cons, getLast?_cons_elim]
      cases h2 : ((tl.filter (fun p => p.1 = kh)).map (fun p => p.2)).getLast? <;> simp
    · have hstep : (if (kh, vh).1 = k then some (kh, vh).2 else a) = a := by simp [h]
      rw [hstep, ih]
      have hfil : (((kh, vh) :: tl).filter (fun p => p.1 = k)) =
          tl.filter (fun p => p.1 = k) := by simp [h]
      rw [hfil]

/-! ## Claim theorems -/

/-- C3: the spec claims the average-size helper is *not* special-cased
against a zero denominator and surfaces a `ZeroDivisionError` when an
average is computed over zero items; the code *is* special-cased
(`if count == 0: return 0.0`), so no division-by-zero failure can ever
escape `average_size` or `gather_metrics`.  (The repository's own test
`test_average_size_empty_sizes` expects the `ZeroDivisionError`, so the
code contradicts its own test suite here.) -/
theorem c3_average_size_is_special_cased :
    average_size [] = Except.ok 0 ∧
    (∀ sizes, average_size sizes ≠ Except.error ArithErr.divByZero) ∧
    (∀ week, gather_metrics week ≠ Except.error ArithErr.divByZero) := by
  have havg : ∀ sizes, average_size sizes ≠ Except.error ArithErr.divByZero := by
    intro sizes h
    by_cases hz : sizes.length = 0
    · simp [average_size, hz] at h
    · have hq : ((sizes.length : ℚ)) ≠ 0 := by exact_mod_cast hz
      simp [average_size, hz, pyDiv, hq] at h
  refine ⟨rfl, havg, ?_⟩
  intro week h
  unfold gather_metrics at h
  cases h1 : average_size (gather_metrics_rec week [""] {}).1.tags.size.sizes with
  | error e =>
    cases e
    exact havg _ h1
  | ok v1 =>
    cases h2 : average_size (gather_metrics_rec week [""] {}).1.folders.size.sizes with
    | error e =>
      cases e
      exact havg _ h2
    | ok v2 => simp [h1, h2] at h

/-- C5: a bookmark built from an `A` fragment whose attribute block has
no `TAGS` key gets `tags == ['']` — the single-element list holding one
empty string (`''.split(', ') == ['']`), not the empty list. -/
theorem c5_missing_tags_attribute (markup text : String)
    (attrib : List (String × String)) (b : Bookmark)
    (h1 : parse_fragment markup = .ok (text, attrib))
    (h2 : dictGet attrib "TAGS" = none)
    (h3 : Bookmark.fill markup = .ok b) :
    b.tags = [""] := by
  unfold Bookmark.fill at h3
  rw [h1] at h3
  simp only [bind, Except.bind, pure, Except.pure] at h3
  rw [h2] at h3
  repeat' split at h3
  all_goals simp at h3
  all_goals subst h3
  all_goals rfl

/-- Witness for C5 at a concrete fragment with no `TAGS` attribute. -/
theorem c5_missing_tags_attribute_witness :
    parse_fragment "<A HREF=\"h\" ADD_DATE=\"1\" LAST_MODIFIED=\"2\">T</A>" =
      .ok ("T", [("HREF", "h"), ("ADD_DATE", "1"), ("LAST_MODIFIED", "2")]) ∧
    dictGet [("HREF", "h"), ("ADD_DATE", "1"), ("LAST_MODIFIED", "2")] "TAGS" = none ∧
    Bookmark.fill "<A HREF=\"h\" ADD_DATE=\"1\" LAST_MODIFIED=\"2\">T</A>" =
      .ok { name := "T", created := 1, updated := 2, url := "h", visited := none,
            tags := [""], notes := none, parent := [] } ∧
    ({ name := "T", created := 1, updated := 2, url := "h", visited := none,
       tags := [""], notes := none, parent := [] } : Bookmark).tags = [""] :=
  ⟨by decide, by decide, by decide,
   c5_missing_tags_attribute "<A HREF=\"h\" ADD_DATE=\"1\" LAST_MODIFIED=\"2\">T</A>" "T"
     [("HREF", "h"), ("ADD_DATE", "1"), ("LAST_MODIFIED", "2")]
     { name := "T", created := 1, updated := 2, url := "h", visited := none,
       tags := [""], notes := none, parent := [] }
     (by decide) (by decide) (by decide)⟩

/-- C8: `parse_fragment` returns the inner text and attribute mapping on
the documented example; inputs that do not match the overall
`<TAG attrs>text</TAG>` shape produce the `ParseError` (`PErr.fragment`),
in particular the two documented malformed inputs; and when the
attribute block repeats a key the mapping holds the value of its last
occurrence. -/
theorem c8_parse_fragment_contract :
    parse_fragment "<A HREF=\"h\" ADD_DATE=\"1\">Text</A>" =
      .ok ("Text", [("HREF", "h"), ("ADD_DATE", "1")]) ∧
    (∀ s : String, extractMatch s.data = none → parse_fragment s = .error (.fragment s)) ∧
    parse_fragment "Not a tag" = .error (.fragment "Not a tag") ∧
    parse_fragment "<A HREF=\"x\"" = .error (.fragment "<A HREF=\"x\"") ∧
    (∀ (pairs : List (String × String)) (k : String),
      dictGet (buildAttrib pairs) k =
        ((pairs.filter (fun p => p.1 = k)).map (fun p => p.2)).getLast?) := by
  refine ⟨by decide, ?_, by decide, by decide, ?_⟩
  · intro s h
    unfold parse_fragment
    rw [h]
  · intro pairs k
    unfold buildAttrib
    rw [dictGet_foldl_dictSet]
    have hnil : dictGet [] k = none := rfl
    rw [hnil, foldl_lastOcc_eq_getLast]
    cases ((pairs.filter (fun p => p.1 = k)).map (fun p => p.2)).getLast? <;> rfl

/-- Witness for C8: the shape-error clause at a concrete non-matching
input, and the last-occurrence clause at a concrete repeated key. -/
theorem c8_parse_fragment_contract_witness :
    parse_fragment "no match here" = .error (.fragment "no match here") ∧
    dictGet (buildAttrib [("K", "1"), ("K", "2")]) "K" = some "2" := by
  constructor
  · exact c8_parse_fragment_contract.2.1 "no match here" (by decide)
  · rw [c8_parse_fragment_contract.2.2.2.2 [("K", "1"), ("K", "2")] "K"]
    decide

/-- C2: the three per-category delta blocks of `differentiate_metrics`
(assigned on `these` before the aggregation step): bookmarks and folders
compare the `count` fields, tags compare the unique-item counts
`len(items)`; `delta = current - previous` with `previous = 0` when
`those is None`; `delta_pct` is `1.0` when the previous count is zero
and the current is not, `0.0` when both are zero, and `delta / previous`
otherwise; `added`/`deleted` are the set differences (against the empty
set when `those is None`, so `added` is a copy of the current items and
`deleted` is empty) and the `_count` fields are their cardinalities.
The last conjunct is the documented instance: previous folder count 5,
current 0 gives `delta_pct == -1.0`. -/
theorem c2_differentiate_deltas_fields (these : Metrics) (those : Option Metrics) :
    (let m := differentiate_deltas these those
     let bprev : Int := (those.map fun t => t.bookmarks.core.count).getD 0
     let bprevI : Finset Int := (those.map fun t => t.bookmarks.core.items).getD ∅
     let fprev : Int := (those.map fun t => t.folders.core.count).getD 0
     let fprevI : Finset String := (those.map fun t => t.folders.core.items).getD ∅
     let tcur : Int := these.tags.core.items.card
     let tprev : Int := (those.map fun t => (t.tags.core.items.card : Int)).getD 0
     let tprevI : Finset String := (those.map fun t => t.tags.core.items).getD ∅
     (m.bookmarks.core.delta = these.bookmarks.core.count - bprev ∧
      m.bookmarks.core.delta_pct =
        (if bprev = 0 then (if these.bookmarks.core.count ≠ 0 then (1 : ℚ) else 0)
         else ((these.bookmarks.core.count - bprev : Int) : ℚ) / (bprev : ℚ)) ∧
      m.bookmarks.core.added = these.bookmarks.core.items \ bprevI ∧
      m.bookmarks.core.added_count = ((these.bookmarks.core.items \ bprevI).card : Int) ∧
      m.bookmarks.core.deleted = bprevI \ these.bookmarks.core.items ∧
      m.bookmarks.core.deleted_count = ((bprevI \ these.bookmarks.core.items).card : Int)) ∧
     (m.folders.core.delta = these.folders.core.count - fprev ∧
      m.folders.core.delta_pct =
        (if fprev = 0 then (if these.folders.core.count ≠ 0 then (1 : ℚ) else 0)
         else ((these.folders.core.count - fprev : Int) : ℚ) / (fprev : ℚ)) ∧
      m.folders.core.added = these.folders.core.items \ fprevI ∧
      m.folders.core.added_count = ((these.folders.core.items \ fprevI).card : Int) ∧
      m.folders.core.deleted = fprevI \ these.folders.core.items ∧
      m.folders.core.deleted_count = ((fprevI \ these.folders.core.items).card : Int)) ∧
     (m.tags.core.delta = tcur - tprev ∧
      m.tags.core.delta_pct =
        (if tprev = 0 then (if tcur ≠ 0 then (1 : ℚ) else 0)
         else ((tcur - tprev : Int) : ℚ) / (tprev : ℚ)) ∧
      m.tags.core.added = these.tags.core.items \ tprevI ∧
      m.tags.core.added_count = ((these.tags.core.items \ tprevI).card : Int) ∧
      m.tags.core.deleted = tprevI \ these.tags.core.items ∧
      m.tags.core.deleted_count = ((tprevI \ these.tags.core.items).card : Int))) ∧
    (differentiate_deltas {} (some { folders := { core := { count := 5 } } })
      ).folders.core.delta_pct = -1 := by
  constructor
  · cases those with
    | none =>
      simp [differentiate_deltas, calculate_delta_metrics]
    | some prev =>
      simp [differentiate_deltas, calculate_delta_metrics]
  · simp [differentiate_deltas, calculate_delta_metrics]

theorem get?_takeWhile_length {α : Type} (p : α → Bool) (l : List α)
    (h : (l.takeWhile p).length < l.length) :
    ∃ a, l.get? (l.takeWhile p).length = some a ∧ p a = false := by
  induction l with
  | nil => simp at h
  | cons x xs ih =>
    cases hx : p x with
    | true =>
      simp only [List.takeWhile_cons, hx, if_true, List.length_cons,
        List.get?_cons_succ, Nat.add_lt_add_iff_right] at h ⊢
      exact ih h
    | false =>
      rw [List.takeWhile_cons, hx]
      exact ⟨x, rfl, hx⟩

/-- C4 (amended): when a timestamp in `added` has no exact match among
the tree's bookmarks, the `bisect_left` position is the insertion point;
if it is still within bounds the lookup silently yields the neighboring
element there (whose `created` is strictly greater), but when the
insertion point equals the list length — the timestamp is beyond every
bookmark — the Python indexing `all_bookmarks[pos]` raises `IndexError`
instead of returning a neighbor, so the original claim fails there. -/
theorem c4_lookup_neighbor_or_index_error (tree : Item) (t : Int)
    (hmiss : ∀ b ∈ all_bookmarks_sorted tree, b.created ≠ t) :
    (bisect_left (all_bookmarks_sorted tree) t < (all_bookmarks_sorted tree).length →
      ∃ b, (all_bookmarks_sorted tree).get? (bisect_left (all_bookmarks_sorted tree) t) =
        some b ∧ t < b.created) ∧
    (bisect_left (all_bookmarks_sorted tree) t = (all_bookmarks_sorted tree).length →
      ∀ bs, collectNew (all_bookmarks_sorted tree) [t] ≠ .ok bs) := by
  constructor
  · intro hlt
    unfold bisect_left at hlt ⊢
    obtain ⟨b, hb, hpb⟩ := get?_takeWhile_length (fun b => decide (b.created < t))
      (all_bookmarks_sorted tree) hlt
    refine ⟨b, hb, ?_⟩
    have hmem : b ∈ all_bookmarks_sorted tree := List.get?_mem hb
    have hne := hmiss b hmem
    simp only [decide_eq_false_iff_not, not_lt] at hpb
    omega
  · intro heq bs hok
    have hnone : (all_bookmarks_sorted tree).get? (bisect_left (all_bookmarks_sorted tree) t) =
        none := by
      rw [heq]
      exact List.get?_eq_none.mpr (le_refl _)
    simp only [collectNew, hnone] at hok
    exact Except.noConfusion hok

/-- Witness for the amended C4 at timestamp 7 on `treeC4w`: the lookup
silently yields the in-bounds neighbor (created 9). -/
theorem c4_lookup_neighbor_or_index_error_witness :
    ∃ b, (all_bookmarks_sorted treeC4w).get? (bisect_left (all_bookmarks_sorted treeC4w) 7) =
      some b ∧ (7 : Int) < b.created :=
  (c4_lookup_neighbor_or_index_error treeC4w 7 (by decide)).1 (by decide)


/-- Counterexample to C4 as stated: in this Differ call the timestamp 7
in `added` has no exact match and lies beyond every bookmark, so the
lookup does *not* silently return a neighboring element — the indexing
`all_bookmarks[pos]` with `pos == len(all_bookmarks)` raises
`IndexError` and `differentiate_metrics` fails. -/
theorem c4_lookup_counterexample :
    (∀ b ∈ all_bookmarks_sorted treeC4, b.created ≠ 7) ∧
    (7 : Int) ∈ (differentiate_deltas theseC4 none).bookmarks.core.added ∧
    (match differentiate_metrics treeC4 theseC4 none with
      | .error e => some e
      | .ok _ => none) = some (.indexErr 1) := by
  refine ⟨by decide, ?_, by decide⟩
  simp [differentiate_deltas, calculate_delta_metrics, theseC4]

/-! ## Order lemmas for the lexicographic comparison -/

theorem charToNat_inj {a b : Char} (h : a.toNat = b.toNat) : a = b :=
  Char.eq_of_val_eq (UInt32.ext h)

theorem lexLe_refl (l : List Char) : lexLe l l = true := by
  induction l with
  | nil => rfl
  | cons a as ih => simp [lexLe, ih]

theorem lexLe_total (a b : List Char) : lexLe a b = true ∨ lexLe b a = true := by
  induction a generalizing b with
  | nil => left; rfl
  | cons x xs ih =>
    cases b with
    | nil => right; rfl
    | cons y ys =>
      by_cases hxy : x = y
      · subst hxy
        simp only [lexLe, if_pos rfl]
        exact ih ys
      · have hne : x.toNat ≠ y.toNat := fun h => hxy (charToNat_inj h)
        have hyx : ¬ y = x := fun h => hxy h.symm
        rcases Nat.lt_or_ge x.toNat y.toNat with h | h
        · left; simp [lexLe, hxy, h]
        · right
          have : y.toNat < x.toNat := lt_of_le_of_ne h (fun hh => hne hh.symm)
          simp [lexLe, hyx, this]

theorem lexLe_trans {a b c : List Char} (h1 : lexLe a b = true)
    (h2 : lexLe b c = true) : lexLe a c = true := by
  induction a generalizing b c with
  | nil => rfl
  | cons x xs ih =>
    cases b with
    | nil => simp [lexLe] at h1
    | cons y ys =>
      cases c with
      | nil => simp [lexLe] at h2
      | cons z zs =>
        by_cases hxy : x = y
        · subst hxy
          simp only [lexLe, if_pos rfl] at h1
          by_cases hyz : x = z
          · subst hyz
            simp only [lexLe, if_pos rfl] at h2 ⊢
            exact ih h1 h2
          · simp only [lexLe, if_neg hyz] at h2 ⊢
            exact h2
        · simp only [lexLe, if_neg hxy, decide_eq_true_eq] at h1
          by_cases hyz : y = z
          · subst hyz
            simp [lexLe, hxy, h1]
          · simp only [lexLe, if_neg hyz, decide_eq_true_eq] at h2
            have hxz : x.toNat < z.toNat := lt_trans h1 h2
            have : ¬ x = z := by
              intro h
              subst h
              exact lt_irrefl _ hxz
            simp [lexLe, this, hxz]

theorem lexLe_antisymm {a b : List Char} (h1 : lexLe a b = true)
    (h2 : lexLe b a = true) : a = b := by
  induction a generalizing b with
  | nil =>
    cases b with
    | nil => rfl
    | cons y ys => simp [lexLe] at h2
  | cons x xs ih =>
    cases b with
    | nil => simp [lexLe] at h1
    | cons y ys =>
      by_cases hxy : x = y
      · subst hxy
        simp only [lexLe, if_pos rfl] at h1 h2
        rw [ih h1 h2]
      · have hyx : ¬ y = x := fun h => hxy h.symm
        simp only [lexLe, if_neg hxy, if_neg hyx, decide_eq_true_eq] at h1 h2
        omega

theorem string_lexLe_antisymm {a b : String} (h1 : lexLe a.data b.data = true)
    (h2 : lexLe b.data a.data = true) : a = b := by
  cases a
  cases b
  exact congrArg String.mk (lexLe_antisymm h1 h2)

/-! ## Sortedness bridges and error-shape lemmas for the parser -/

theorem allSortedB_iff (l : List Item) :
    allSortedB l = true ↔ ∀ i ∈ l, sortedTreeB i = true := by
  induction l with
  | nil => simp [allSortedB]
  | cons x xs ih =>
    simp [allSortedB, Bool.and_eq_true, ih]

theorem pairwiseNameLe_of_pairwise {l : List Item}
    (h : l.Pairwise (fun a b => lexLe a.name.data b.name.data = true)) :
    pairwiseNameLe l = true := by
  induction l with
  | nil => rfl
  | cons x xs ih =>
    cases xs with
    | nil => rfl
    | cons y ys =>
      rw [List.pairwise_cons] at h
      obtain ⟨hx, hrest⟩ := h
      simp only [pairwiseNameLe, Bool.and_eq_true]
      exact ⟨hx y (by simp), ih hrest⟩

theorem sortedTreeB_sortContent {content : List Item}
    (h : ∀ i ∈ content, sortedTreeB i = true)
    (fN : String) (fc fu : Int) (d : Nat) (fP : List String) :
    sortedTreeB (.fd fN fc fu d fP (sortContent content)) = true := by
  haveI : IsTotal Item (fun a b => lexLe a.name.data b.name.data = true) :=
    ⟨fun a b => lexLe_total a.name.data b.name.data⟩
  haveI : IsTrans Item (fun a b => lexLe a.name.data b.name.data = true) :=
    ⟨fun _ _ _ h1 h2 => lexLe_trans h1 h2⟩
  have hsorted := List.sorted_insertionSort
    (fun a b : Item => lexLe a.name.data b.name.data = true) content
  have hperm := content.perm_insertionSort
    (fun a b : Item => lexLe a.name.data b.name.data = true)
  simp only [sortedTreeB, Bool.and_eq_true]
  constructor
  · exact pairwiseNameLe_of_pairwise hsorted
  · rw [allSortedB_iff]
    intro i hi
    exact h i (hperm.mem_iff.mp hi)

theorem wrapCtx_ne_outOfFuel {e : PErr} (h : e ≠ .outOfFuel) (n : String) (d : Nat) :
    wrapCtx n d e ≠ .outOfFuel := by
  unfold wrapCtx
  split
  · simp
  · exact h

theorem process_dd_error_shape {line : String} {content : List Item} {ln : Nat} {e : PErr}
    (h : process_dd line content ln = .error e) : e ≠ .outOfFuel := by
  unfold process_dd at h
  repeat' split at h
  all_goals simp_all
  all_goals intro hc
  all_goals simp [hc] at h

theorem process_dd_sorted {line : String} {content c' : List Item} {ln : Nat}
    (h : process_dd line content ln = .ok c')
    (hs : ∀ i ∈ content, sortedTreeB i = true) : ∀ i ∈ c', sortedTreeB i = true := by
  unfold process_dd at h
  repeat' split at h
  all_goals simp_all
  intro i hi
  subst h
  rcases List.mem_append.mp hi with hmem | hmem
  · exact hs i ((List.dropLast_sublist content).subset hmem)
  · simp only [List.mem_singleton] at hmem
    subst hmem
    rfl

theorem parse_fragment_error_shape {s : String} {e : PErr}
    (h : parse_fragment s = .error e) : e = .fragment s := by
  unfold parse_fragment at h
  split at h
  · exact (Except.error.injEq _ _).mp h.symm
  · simp at h

theorem bookmark_fill_not_outOfFuel (m : String) : Bookmark.fill m ≠ .error .outOfFuel := by
  intro h
  unfold Bookmark.fill at h
  simp only [bind, Except.bind, pure, Except.pure] at h
  split at h
  · rename_i e heq
    rw [parse_fragment_error_shape heq] at h
    simp at h
  · repeat' split at h
    all_goals simp_all

theorem folder_fill_not_outOfFuel (m : String) : Folder.fill m ≠ .error .outOfFuel := by
  intro h
  unfold Folder.fill at h
  split at h
  · simp at h
  · simp only [bind, Except.bind, pure, Except.pure] at h
    split at h
    · rename_i e heq
      rw [parse_fragment_error_shape heq] at h
      simp at h
    · repeat' split at h
      all_goals simp_all

theorem folder_loop_nil_eq (fuel : Nat) (fN : String) (fc fu : Int) (depth : Nat)
    (fP par : List String) (em : String) (content : List Item) (blank : Bool)
    (ln : Nat) :
    folder_loop (fuel + 1) fN fc fu depth fP par em content blank [] ln =
      (if blank then
        .ok (.fd fN fc fu depth fP (sortContent content), [])
      else .error (.unterminated fN)) := rfl

theorem folder_loop_cons_eq (fuel : Nat) (fN : String) (fc fu : Int) (depth : Nat)
    (fP par : List String) (em : String) (content : List Item) (blank : Bool)
    (line : String) (rest : List String) (ln : Nat) :
    folder_loop (fuel + 1) fN fc fu depth fP par em content blank (line :: rest) ln =
      (if line = em then
        .ok (.fd fN fc fu depth fP (sortContent content), rest)
      else if line = "" then
        folder_loop fuel fN fc fu depth fP par em content true rest (ln + 1)
      else if isSubIn "<DT>".data line.data then
        match process_dt fuel line rest content par (ln + 1) with
        | .error e => .error (wrapCtx fN par.length e)
        | .ok (content', q') =>
          folder_loop fuel fN fc fu depth fP par em content' false q' (ln + 1)
      else if isSubIn "<DD>".data line.data then
        match process_dd line content (ln + 1) with
        | .error e => .error (wrapCtx fN par.length e)
        | .ok content' =>
          folder_loop fuel fN fc fu depth fP par em content' false rest (ln + 1)
      else .error (wrapCtx fN par.length (.unknownContent (ln + 1) line))) := rfl

theorem process_dt_succ_eq (fuel : Nat) (line : String) (queue : List String)
    (content : List Item) (parent : List String) (ln : Nat) :
    process_dt (fuel + 1) line queue content parent ln =
      (if parent.length > MAX_NESTING_DEPTH then .error (.maxDepthDt ln)
      else
        match matchDT line with
        | none => .error (.badDt ln line)
        | some (markup, tag) =>
          if tag = "A" then
            match Bookmark.fill markup with
            | .error e => .error e
            | .ok b => .ok (content ++ [.bm { b with parent := parent }], queue)
          else if tag = "H3" then
            match queue with
            | [] => .error (.unexpectedEnd markup ln)
            | next :: rest =>
              if matchDLOpen next then
                match process_folder fuel markup rest parent (ln + 1) with
                | .error e => .error e
                | .ok (sub, q') => .ok (content ++ [sub], q')
              else .error (.missingOpenDL markup ln next)
          else .error (.unknownTag tag ln)) := rfl

theorem process_folder_succ_eq (fuel : Nat) (text : String) (queue : List String)
    (path : List String) (ln : Nat) :
    process_folder (fuel + 1) text queue path ln =
      (if path.length > MAX_NESTING_DEPTH then .error (.maxDepthFolder ln)
      else
        match Folder.fill text with
        | .error e => .error e
        | .ok (name, created, updated) =>
          folder_loop fuel name created updated path.length path (path ++ [name])
            (endMarkerFor path.length) [] false queue ln) := rfl

/-- The central parser induction: with fuel at least `3·|queue| + k`
(`k = 1` for the loop, `3` for `process_dt`, `2` for `process_folder`)
the fuel never runs out; independently of fuel, a successful loop,
`process_dt` or folder leaves a suffix of its queue, and every folder
built is name-sorted at every level (both return paths of the loop —
end marker found, and exhaustion right after an empty line — sort the
accumulated content). -/
theorem parser_fuel_invariants : ∀ fuel : Nat,
    (∀ (fN : String) (fc fu : Int) (depth : Nat) (fP par : List String)
      (em : String) (content : List Item) (blank : Bool) (queue : List String) (ln : Nat),
      (3 * queue.length + 1 ≤ fuel →
        folder_loop fuel fN fc fu depth fP par em content blank queue ln ≠ .error .outOfFuel) ∧
      (∀ it q', folder_loop fuel fN fc fu depth fP par em content blank queue ln = .ok (it, q') →
        q' <:+ queue ∧
        ((∀ i ∈ content, sortedTreeB i = true) → sortedTreeB it = true))) ∧
    (∀ (line : String) (queue : List String) (content : List Item)
      (par : List String) (ln : Nat),
      (3 * queue.length + 3 ≤ fuel →
        process_dt fuel line queue content par ln ≠ .error .outOfFuel) ∧
      (∀ c' q', process_dt fuel line queue content par ln = .ok (c', q') →
        q' <:+ queue ∧
        ((∀ i ∈ content, sortedTreeB i = true) → ∀ i ∈ c', sortedTreeB i = true))) ∧
    (∀ (text : String) (queue path : List String) (ln : Nat),
      (3 * queue.length + 2 ≤ fuel →
        process_folder fuel text queue path ln ≠ .error .outOfFuel) ∧
      (∀ it q', process_folder fuel text queue path ln = .ok (it, q') →
        q' <:+ queue ∧
        sortedTreeB it = true)) := by
  intro fuel
  induction fuel with
  | zero =>
    refine ⟨?_, ?_, ?_⟩
    · intro fN fc fu depth fP par em content blank queue ln
      exact ⟨fun hq => by omega, fun it q' h => Except.noConfusion h⟩
    · intro line queue content par ln
      exact ⟨fun hq => by omega, fun c' q' h => Except.noConfusion h⟩
    · intro text queue path ln
      exact ⟨fun hq => by omega, fun it q' h => Except.noConfusion h⟩
  | succ fuel ih =>
    obtain ⟨ihL, ihD, ihP⟩ := ih
    refine ⟨?_, ?_, ?_⟩
    · -- folder_loop
      intro fN fc fu depth fP par em content blank queue ln
      cases queue with
      | nil =>
        rw [folder_loop_nil_eq]
        cases blank with
        | false =>
          rw [if_neg (by simp)]
          exact ⟨fun _ => by simp, fun it q' h => by simp at h⟩
        | true =>
          rw [if_pos rfl]
          refine ⟨fun _ => by simp, ?_⟩
          intro it q' h
          rw [Except.ok.injEq, Prod.mk.injEq] at h
          obtain ⟨hit, hq'⟩ := h
          subst hit
          subst hq'
          refine ⟨List.nil_suffix, ?_⟩
          intro hcontent
          exact sortedTreeB_sortContent hcontent fN fc fu depth fP
      | cons line rest =>
        rw [folder_loop_cons_eq]
        by_cases hmk : line = em
        · rw [if_pos hmk]
          refine ⟨fun _ => by simp, ?_⟩
          intro it q' h
          rw [Except.ok.injEq, Prod.mk.injEq] at h
          obtain ⟨hit, hq'⟩ := h
          subst hit
          subst hq'
          refine ⟨List.suffix_cons line rest, ?_⟩
          intro hcontent
          exact sortedTreeB_sortContent hcontent fN fc fu depth fP
        · rw [if_neg hmk]
          by_cases hemp : line = ""
          · rw [if_pos hemp]
            have hres := ihL fN fc fu depth fP par em content true rest (ln + 1)
            refine ⟨?_, ?_⟩
            · intro hq
              simp only [List.length_cons] at hq
              exact hres.1 (by omega)
            · intro it q' h
              obtain ⟨hsuf, hsort⟩ := hres.2 it q' h
              exact ⟨hsuf.trans (List.suffix_cons line rest), hsort⟩
          · rw [if_neg hemp]
            cases hdtb : isSubIn "<DT>".data line.data with
            | true =>
              rw [if_pos rfl]
              have hdres := ihD line rest content par (ln + 1)
              cases hdt : process_dt fuel line rest content par (ln + 1) with
              | error e =>
                refine ⟨?_, ?_⟩
                · intro hq h
                  simp only [List.length_cons] at hq
                  have hne : e ≠ .outOfFuel := by
                    intro hc
                    subst hc
                    exact hdres.1 (by omega) hdt
                  rw [Except.error.injEq] at h
                  exact wrapCtx_ne_outOfFuel hne fN par.length h
                · intro it q' h
                  exact Except.noConfusion h
              | ok cq =>
                obtain ⟨content', q'⟩ := cq
                obtain ⟨hsuf, hsorted'⟩ := hdres.2 content' q' hdt
                have hq'len : q'.length ≤ rest.length := hsuf.length_le
                have hres := ihL fN fc fu depth fP par em content' false q' (ln + 1)
                refine ⟨?_, ?_⟩
                · intro hq
                  simp only [List.length_cons] at hq
                  exact hres.1 (by omega)
                · intro it q'' h
                  obtain ⟨hsuf2, hsort⟩ := hres.2 it q'' h
                  refine ⟨(hsuf2.trans hsuf).trans (List.suffix_cons line rest), ?_⟩
                  intro hcontent
                  exact hsort (hsorted' hcontent)
            | false =>
              rw [if_neg (by simp)]
              cases hddb : isSubIn "<DD>".data line.data with
              | true =>
                rw [if_pos rfl]
                cases hdd : process_dd line content (ln + 1) with
                | error e =>
                  refine ⟨?_, ?_⟩
                  · intro hq h
                    rw [Except.error.injEq] at h
                    exact wrapCtx_ne_outOfFuel (process_dd_error_shape hdd) fN par.length h
                  · intro it q' h
                    exact Except.noConfusion h
                | ok content' =>
                  have hres := ihL fN fc fu depth fP par em content' false rest (ln + 1)
                  refine ⟨?_, ?_⟩
                  · intro hq
                    simp only [List.length_cons] at hq
                    exact hres.1 (by omega)
                  · intro it q' h
                    obtain ⟨hsuf, hsort⟩ := hres.2 it q' h
                    refine ⟨hsuf.trans (List.suffix_cons line rest), ?_⟩
                    intro hcontent
                    exact hsort (process_dd_sorted hdd hcontent)
              | false =>
                rw [if_neg (by simp)]
                refine ⟨?_, ?_⟩
                · intro hq h
                  rw [Except.error.injEq] at h
                  exact wrapCtx_ne_outOfFuel (by simp) fN par.length h
                · intro it q' h
                  exact Except.noConfusion h
    · -- process_dt
      intro line queue content par ln
      rw [process_dt_succ_eq]
      by_cases hdepth : par.length > MAX_NESTING_DEPTH
      · rw [if_pos hdepth]
        exact ⟨fun _ => by simp, fun c' q' h => Except.noConfusion h⟩
      · rw [if_neg hdepth]
        cases hm : matchDT line with
        | none => exact ⟨fun _ => by simp, fun c' q' h => Except.noConfusion h⟩
        | some mt =>
          obtain ⟨markup, tag⟩ := mt
          dsimp only
          by_cases htA : tag = "A"
          · rw [if_pos htA]
            cases hfill : Bookmark.fill markup with
            | error e =>
              refine ⟨?_, fun c' q' h => Except.noConfusion h⟩
              intro hq h
              rw [Except.error.injEq] at h
              subst h
              exact bookmark_fill_not_outOfFuel markup hfill
            | ok b =>
              refine ⟨fun _ => by simp, ?_⟩
              intro c' q' h
              rw [Except.ok.injEq, Prod.mk.injEq] at h
              obtain ⟨hc', hq'⟩ := h
              subst hc'
              subst hq'
              refine ⟨List.suffix_refl _, ?_⟩
              intro hcontent i hi
              rcases List.mem_append.mp hi with hmem | hmem
              · exact hcontent i hmem
              · simp only [List.mem_singleton] at hmem
                subst hmem
                rfl
          · rw [if_neg htA]
            by_cases htH : tag = "H3"
            · rw [if_pos htH]
              cases queue with
              | nil => exact ⟨fun _ => by simp, fun c' q' h => Except.noConfusion h⟩
              | cons next rest2 =>
                dsimp only
                by_cases hdl : matchDLOpen next = true
                · rw [if_pos hdl]
                  have hpres := ihP markup rest2 par (ln + 1)
                  cases hpf : process_folder fuel markup rest2 par (ln + 1) with
                  | error e =>
                    refine ⟨?_, fun c' q' h => Except.noConfusion h⟩
                    intro hq h
                    simp only [List.length_cons] at hq
                    rw [Except.error.injEq] at h
                    subst h
                    exact hpres.1 (by omega) hpf
                  | ok sq =>
                    obtain ⟨sub, q'⟩ := sq
                    obtain ⟨hsuf, hsorted⟩ := hpres.2 sub q' hpf
                    refine ⟨fun _ => by simp, ?_⟩
                    intro c' q'' h
                    rw [Except.ok.injEq, Prod.mk.injEq] at h
                    obtain ⟨hc', hq'⟩ := h
                    subst hc'
                    subst hq'
                    constructor
                    · exact hsuf.trans (List.suffix_cons next rest2)
                    · intro hcontent i hi
                      rcases List.mem_append.mp hi with hmem | hmem
                      · exact hcontent i hmem
                      · simp only [List.mem_singleton] at hmem
                        subst hmem
                        exact hsorted
                · rw [if_neg hdl]
                  exact ⟨fun _ => by simp, fun c' q' h => Except.noConfusion h⟩
            · rw [if_neg htH]
              exact ⟨fun _ => by simp, fun c' q' h => Except.noConfusion h⟩
    · -- process_folder
      intro text queue path ln
      rw [process_folder_succ_eq]
      by_cases hdepth : path.length > MAX_NESTING_DEPTH
      · rw [if_pos hdepth]
        exact ⟨fun _ => by simp, fun it q' h => Except.noConfusion h⟩
      · rw [if_neg hdepth]
        cases hfill : Folder.fill text with
        | error e =>
          refine ⟨?_, fun it q' h => Except.noConfusion h⟩
          intro hq h
          rw [Except.error.injEq] at h
          subst h
          exact folder_fill_not_outOfFuel text hfill
        | ok ncu =>
          obtain ⟨name, created, updated⟩ := ncu
          have hres := ihL name created updated path.length path (path ++ [name])
            (endMarkerFor path.length) [] false queue ln
          refine ⟨?_, ?_⟩
          · intro hq
            exact hres.1 (by omega)
          · intro it q' h
            obtain ⟨hsuf, hsort⟩ := hres.2 it q' h
            exact ⟨hsuf, hsort (by intro i hi; simp at hi)⟩

/-- C10: the parser terminates on every finite list of input lines — in
the fuel embedding, any fuel of at least `3·|queue| + 2` (each loop
iteration removes a line from the shared queue, each descent first
consumes the `<DL><p>` opener, and the depth guard bounds everything
else) is never exhausted, and `parse_bookmarks`, which runs
`process_folder` with exactly that fuel, can never report fuel
exhaustion: it always returns a `Folder` or one of the parser's own
errors. -/
theorem c10_parser_terminates :
    (∀ (fuel : Nat) (text : String) (queue path : List String) (ln : Nat),
      3 * queue.length + 2 ≤ fuel →
      process_folder fuel text queue path ln ≠ .error .outOfFuel) ∧
    (∀ content : String, parse_bookmarks content ≠ .error .outOfFuel) := by
  have hmain : ∀ (fuel : Nat) (text : String) (queue path : List String) (ln : Nat),
      3 * queue.length + 2 ≤ fuel →
      process_folder fuel text queue path ln ≠ .error .outOfFuel := by
    intro fuel text queue path ln hfuel
    exact ((parser_fuel_invariants fuel).2.2 text queue path ln).1 hfuel
  refine ⟨hmain, ?_⟩
  intro content h2
  unfold parse_bookmarks at h2
  split at h2
  · simp at h2
  · dsimp only at h2
    split at h2
    · simp at h2
    · split at h2
      · simp at h2
      · rename_i l0 rest hlines
        split at h2
        · simp at h2
        · split at h2
          · rename_i e heq
            rw [Except.error.injEq] at h2
            subst h2
            exact hmain (3 * rest.length + 2) "" rest [] (HEADER_LINES + 1) (le_refl _) heq
          · simp at h2

/-- Witness for C10 at concrete fuel and queue. -/
theorem c10_parser_terminates_witness :
    process_folder 2 "" [] [] 5 ≠ .error .outOfFuel :=
  c10_parser_terminates.1 2 "" [] [] 5 (by decide)

/-- C7 (amended): exhaustion of the line queue before the end marker
fails with the unterminated-folder error naming the folder only when
the sentinel is `None` (queue exhausted at the loop start or right
after a fully processed line); when the queue is exhausted immediately
after an empty line, the `''` left in the sentinel defeats the
`line is None` post-check and the folder is sorted and returned as if
properly closed. The context-wrapping re-raise preserves the folder
name; on the concrete export `docC7` (whose last line is non-empty)
the folder "Inner" is left open and `parse_bookmarks` fails with an
error that names "Inner". -/
theorem c7_unterminated_folder :
    (∀ (fuel : Nat) (fN : String) (fc fu : Int) (depth : Nat) (fP par : List String)
      (em : String) (content : List Item) (ln : Nat),
      folder_loop (fuel + 1) fN fc fu depth fP par em content false [] ln =
        .error (.unterminated fN)) ∧
    (∀ (fuel : Nat) (fN : String) (fc fu : Int) (depth : Nat) (fP par : List String)
      (em : String) (content : List Item) (ln : Nat),
      folder_loop (fuel + 1) fN fc fu depth fP par em content true [] ln =
        .ok (.fd fN fc fu depth fP (sortContent content), [])) ∧
    (∀ (n : String) (d : Nat) (e : PErr) (m : String),
      PErr.mentionsUnterminated e m = true →
      PErr.mentionsUnterminated (wrapCtx n d e) m = true) ∧
    (match parse_bookmarks docC7 with
      | .error e => e.mentionsUnterminated "Inner"
      | .ok _ => false) = true := by
  refine ⟨?_, ?_, ?_, by decide⟩
  · intro fuel fN fc fu depth fP par em content ln
    rfl
  · intro fuel fN fc fu depth fP par em content ln
    rfl
  · intro n d e m h
    unfold wrapCtx
    split
    · simpa [PErr.mentionsUnterminated] using h
    · exact h

/-- Witness for C7: both exhaustion outcomes at a concrete folder, and
the context wrap at a concrete error. -/
theorem c7_unterminated_folder_witness :
    folder_loop 1 "F" 0 0 0 [] [""] "</DL><p>" [] false [] 6 =
      .error (.unterminated "F") ∧
    folder_loop 1 "F" 0 0 0 [] [""] "</DL><p>" [] true [] 6 =
      .ok (.fd "F" 0 0 0 [] [], []) ∧
    (PErr.mentionsUnterminated (.unterminated "F") "F" = true ∧
     PErr.mentionsUnterminated (wrapCtx "G" 1 (.unterminated "F")) "F" = true) :=
  ⟨c7_unterminated_folder.1 0 "F" 0 0 0 [] [""] "</DL><p>" [] 6,
   c7_unterminated_folder.2.1 0 "F" 0 0 0 [] [""] "</DL><p>" [] 6,
   by decide,
   c7_unterminated_folder.2.2.1 "G" 1 (.unterminated "F") "F" (by decide)⟩

/-- Counterexample to the original C7 claim: `docC7ok` is an
unterminated export ending in a newline — no line of its queue is (or
even contains) an end marker `</DL><p>` — yet parsing does not fail:
the queue is exhausted right after the trailing empty line and
`parse_bookmarks` returns the full tree. -/
theorem c7_unterminated_counterexample :
    ((pySplit [Char.ofNat 10] docC7ok.data).map String.mk).all
      (fun l => !(isSubIn "</DL><p>".data l.data)) = true ∧
    parse_bookmarks docC7ok = .ok treeC6w := by
  constructor
  · decide
  · decide

/-- C6: every folder of a tree returned by a successful
`parse_bookmarks` — root and descendants — has its `content` sorted by
name in non-decreasing lexicographic order on the raw name string, and
the sort applied to each content list is stable: elements of equal name
keep their pre-sort relative order (their filtered subsequence is
unchanged). -/
theorem c6_content_sorted :
    (∀ (content : String) (it : Item), parse_bookmarks content = .ok it →
      sortedTreeB it = true) ∧
    (∀ (l : List Item) (s : String),
      (sortContent l).filter (fun i => i.name = s) = l.filter (fun i => i.name = s)) := by
  constructor
  · intro content it h
    unfold parse_bookmarks at h
    split at h
    · simp at h
    · dsimp only at h
      split at h
      · simp at h
      · split at h
        · simp at h
        · rename_i l0 rest hlines
          split at h
          · simp at h
          · split at h
            · simp at h
            · rename_i it' q' heq
              rw [Except.ok.injEq] at h
              subst h
              exact (((parser_fuel_invariants (3 * rest.length + 2)).2.2 ""
                rest [] (HEADER_LINES + 1)).2 it' q' heq).2
  · intro l s
    haveI : IsTotal Item (fun a b => lexLe a.name.data b.name.data = true) :=
      ⟨fun a b => lexLe_total a.name.data b.name.data⟩
    haveI : IsTrans Item (fun a b => lexLe a.name.data b.name.data = true) :=
      ⟨fun _ _ _ h1 h2 => lexLe_trans h1 h2⟩
    have hc : (l.filter (fun i => i.name = s)).Pairwise
        (fun a b => lexLe a.name.data b.name.data = true) := by
      apply List.pairwise_of_forall_mem_list
      intro a ha b hb
      have ha2 := (List.mem_filter.mp ha).2
      have hb2 := (List.mem_filter.mp hb).2
      simp only [decide_eq_true_eq] at ha2 hb2
      rw [ha2, hb2]
      exact lexLe_refl _
    have hsub : List.Sublist (l.filter (fun i => i.name = s)) (sortContent l) :=
      List.sublist_insertionSort hc (List.filter_sublist l)
    have hidem : (l.filter (fun i => i.name = s)).filter (fun i => i.name = s) =
        l.filter (fun i => i.name = s) := by
      apply List.filter_eq_self.mpr
      intro a ha
      exact (List.mem_filter.mp ha).2
    have hsubf : List.Sublist (l.filter (fun i => i.name = s))
        ((sortContent l).filter (fun i => i.name = s)) := by
      have h2 := hsub.filter (fun i => decide (i.name = s))
      rwa [hidem] at h2
    have hlen : ((sortContent l).filter (fun i => i.name = s)).length =
        (l.filter (fun i => i.name = s)).length :=
      ((l.perm_insertionSort _).filter _).length_eq
    exact (hsubf.eq_of_length hlen.symm).symm

/-- Witness for C6 at a concrete parse. -/
theorem c6_content_sorted_witness :
    parse_bookmarks docC6w = .ok treeC6w ∧ sortedTreeB treeC6w = true :=
  ⟨by decide, c6_content_sorted.1 docC6w treeC6w (by decide)⟩

/-! ## Counter lemmas and the gatherer induction (claim C9) -/

theorem itemWeight_pos (i : Item) : 1 ≤ itemWeight i := by
  cases i <;> simp [itemWeight]

theorem cntKeys_cons (kh : String) (vh : Nat) (tl : List (String × Nat)) :
    cntKeys ((kh, vh) :: tl) = kh :: cntKeys tl := rfl

theorem cntKeys_append (a b : List (String × Nat)) :
    cntKeys (a ++ b) = cntKeys a ++ cntKeys b := by
  simp [cntKeys]

theorem cntSet_fresh (c : List (String × Nat)) (k : String) (v : Nat)
    (h : k ∉ cntKeys c) : cntSet c k v = c ++ [(k, v)] := by
  induction c with
  | nil => rfl
  | cons hd tl ih =>
    obtain ⟨kh, vh⟩ := hd
    rw [cntKeys_cons] at h
    have h1 : ¬ kh = k := fun he => h (he ▸ List.mem_cons_self _ _)
    have h2 : k ∉ cntKeys tl := fun hm => h (List.mem_cons_of_mem _ hm)
    simp only [cntSet, if_neg h1, List.cons_append]
    rw [ih h2]

theorem cntIncr_fresh (c : List (String × Nat)) (k : String) (v : Nat)
    (h : k ∉ cntKeys c) : cntIncr c k v = c ++ [(k, v)] := by
  induction c with
  | nil => rfl
  | cons hd tl ih =>
    obtain ⟨kh, vh⟩ := hd
    rw [cntKeys_cons] at h
    have h1 : ¬ kh = k := fun he => h (he ▸ List.mem_cons_self _ _)
    have h2 : k ∉ cntKeys tl := fun hm => h (List.mem_cons_of_mem _ hm)
    simp only [cntIncr, if_neg h1, List.cons_append]
    rw [ih h2]

theorem cntUpdate_fresh (c other : List (String × Nat))
    (hdisj : ∀ k ∈ cntKeys other, k ∉ cntKeys c)
    (hnd : (cntKeys other).Nodup) : cntUpdate c other = c ++ other := by
  induction other generalizing c with
  | nil => simp [cntUpdate]
  | cons hd tl ih =>
    obtain ⟨kh, vh⟩ := hd
    rw [cntKeys_cons] at hdisj hnd
    rw [List.nodup_cons] at hnd
    have hfresh : kh ∉ cntKeys c := hdisj kh (List.mem_cons_self _ _)
    have hstep : cntUpdate c ((kh, vh) :: tl) = cntUpdate (cntIncr c kh vh) tl := rfl
    rw [hstep, cntIncr_fresh c kh vh hfresh, ih]
    · simp
    · intro k hk
      rw [cntKeys_append, cntKeys_cons]
      have hkc : k ∉ cntKeys c := hdisj k (List.mem_cons_of_mem _ hk)
      have hkk : k ≠ kh := fun hh => hnd.1 (hh ▸ hk)
      intro hmem
      rcases List.mem_append.mp hmem with hm | hm
      · exact hkc hm
      · simp only [cntKeys, List.map_cons, List.map_nil, List.mem_singleton] at hm
        exact hkk hm
    · exact hnd.2

theorem cntGet_of_mem_nodup (c : List (String × Nat)) (k : String) (v : Nat)
    (hmem : (k, v) ∈ c) (hnd : (cntKeys c).Nodup) : cntGet c k = some v := by
  induction c with
  | nil => simp at hmem
  | cons hd tl ih =>
    obtain ⟨kh, vh⟩ := hd
    rw [cntKeys_cons, List.nodup_cons] at hnd
    rcases List.mem_cons.mp hmem with hh | hh
    · rw [Prod.mk.injEq] at hh
      obtain ⟨h1, h2⟩ := hh
      subst h1
      subst h2
      simp [cntGet]
    · have hne : kh ≠ k := by
        intro he
        subst he
        exact hnd.1 (List.mem_map_of_mem (fun p => p.1) hh)
      simp only [cntGet, if_neg hne]
      exact ih hh hnd.2

theorem gatherBookmark_folders (m : Metrics) (b : Bookmark) :
    (gatherBookmark m b).folders = m.folders := by
  unfold gatherBookmark
  have : ∀ (tags : List String) (m0 : Metrics),
      (tags.foldl (fun m tag =>
        { m with
          tags.core.items := insert tag m.tags.core.items,
          tags.size.sizes := cntIncr m.tags.size.sizes tag 1 }) m0).folders = m0.folders := by
    intro tags
    induction tags with
    | nil => intro m0; rfl
    | cons t ts ih => intro m0; rw [List.foldl_cons, ih]
  rw [this]

theorem foldl_gatherBookmark_folders (bs : List Bookmark) (m : Metrics) :
    (bs.foldl gatherBookmark m).folders = m.folders := by
  induction bs generalizing m with
  | nil => rfl
  | cons b rest ih => rw [List.foldl_cons, ih, gatherBookmark_folders]

theorem gather_metrics_rec_fd_eq (n : String) (c u : Int) (d : Nat)
    (p : List String) (cnt : List Item) (path : List String) (m : Metrics) :
    gather_metrics_rec (.fd n c u d p cnt) path m =
      gatherSubfolders cnt path
        ((bookmarksOf cnt).foldl gatherBookmark
          (let m1 := { m with folders.max_depth := max m.folders.max_depth d }
           let m2 := { m1 with
             folders.core.count := m1.folders.core.count + 1,
             folders.core.items := insert (joinPath path) m1.folders.core.items,
             folders.size.sizes := cntSet m1.folders.size.sizes (joinPath path) cnt.length,
             folders.size.max_size := max m1.folders.size.max_size cnt.length,
             folders.size.min_size := min m1.folders.size.min_size cnt.length }
           { m2 with bookmarks.core.count :=
              m2.bookmarks.core.count + (bookmarksOf cnt).length }))
        (cntSet [] (joinPath path) (bookmarksOf cnt).length) := rfl

theorem gatherSubfolders_nil_eq (path : List String) (m : Metrics)
    (fsizes : List (String × Nat)) :
    gatherSubfolders [] path m fsizes = (m, fsizes) := rfl

theorem gatherSubfolders_bm_eq (b : Bookmark) (rest : List Item) (path : List String)
    (m : Metrics) (fsizes : List (String × Nat)) :
    gatherSubfolders (.bm b :: rest) path m fsizes =
      gatherSubfolders rest path m fsizes := rfl

theorem gatherSubfolders_fd_eq (n : String) (c u : Int) (d : Nat) (p : List String)
    (cnt rest : List Item) (path : List String) (m : Metrics)
    (fsizes : List (String × Nat)) :
    gatherSubfolders (.fd n c u d p cnt :: rest) path m fsizes =
      gatherSubfolders rest path
        (gather_metrics_rec (.fd n c u d p cnt) (path ++ [n]) m).1
        (cntUpdate fsizes (gather_metrics_rec (.fd n c u d p cnt) (path ++ [n]) m).2) := rfl

theorem cntKeys_map_fsEntry (l : List (List String × Item)) :
    cntKeys (l.map fsEntry) = l.map (fun pf => joinPath pf.1) := by
  induction l with
  | nil => rfl
  | cons hd tl ih => simp [cntKeys, fsEntry] at ih ⊢

theorem cntKeys_map_szEntry (l : List (List String × Item)) :
    cntKeys (l.map szEntry) = l.map (fun pf => joinPath pf.1) := by
  induction l with
  | nil => rfl
  | cons hd tl ih => simp [cntKeys, szEntry] at ih ⊢

/-- The gatherer induction (claim C9): when the `::`-joined folder paths
of the pending subtrees are pairwise distinct and fresh for the
accumulators, `gatherSubfolders` extends the bottom-up `folder_sizes`
counter with one entry per folder mapping its path to its direct
bookmark count, and extends `metrics.folders.sizes` with one entry per
folder mapping its path to `len(content)`. -/
theorem gatherSubs_entries : ∀ (w : Nat) (items : List Item) (path : List String)
    (m : Metrics) (fsizes : List (String × Nat)),
    listWeight items ≤ w →
    ((foldersWithPathsList items path).map (fun pf => joinPath pf.1)).Nodup →
    (∀ k ∈ (foldersWithPathsList items path).map (fun pf => joinPath pf.1),
      k ∉ cntKeys m.folders.size.sizes) →
    (∀ k ∈ (foldersWithPathsList items path).map (fun pf => joinPath pf.1),
      k ∉ cntKeys fsizes) →
    (gatherSubfolders items path m fsizes).2 =
      fsizes ++ (foldersWithPathsList items path).map fsEntry ∧
    (gatherSubfolders items path m fsizes).1.folders.size.sizes =
      m.folders.size.sizes ++ (foldersWithPathsList items path).map szEntry := by
  intro w
  induction w with
  | zero =>
    intro items path m fsizes hw hnd hdm hdf
    cases items with
    | nil => simp [gatherSubfolders_nil_eq, foldersWithPathsList]
    | cons i rest =>
      exfalso
      have h1 := itemWeight_pos i
      simp only [listWeight] at hw
      omega
  | succ w ih =>
    intro items path m fsizes hw hnd hdm hdf
    cases items with
    | nil => simp [gatherSubfolders_nil_eq, foldersWithPathsList]
    | cons i rest =>
      cases i with
      | bm b =>
        rw [gatherSubfolders_bm_eq]
        have hw2 : listWeight rest ≤ w := by
          simp only [listWeight, itemWeight] at hw
          omega
        exact ih rest path m fsizes hw2 hnd hdm hdf
      | fd n c u d p cnt =>
        have hw2 : listWeight cnt ≤ w ∧ listWeight rest ≤ w := by
          simp only [listWeight, itemWeight] at hw
          constructor <;> omega
        have hfwp : foldersWithPathsList (.fd n c u d p cnt :: rest) path =
            foldersWithPaths (.fd n c u d p cnt) (path ++ [n]) ++
              foldersWithPathsList rest path := rfl
        have hfwphd : foldersWithPaths (.fd n c u d p cnt) (path ++ [n]) =
            (path ++ [n], .fd n c u d p cnt) :: foldersWithPathsList cnt (path ++ [n]) := rfl
        rw [hfwp] at hnd hdm hdf ⊢
        rw [List.map_append] at hnd hdm hdf
        rw [List.nodup_append] at hnd
        obtain ⟨hndA, hndB, hdisjAB⟩ := hnd
        have hdmA : ∀ k ∈ (foldersWithPaths (.fd n c u d p cnt) (path ++ [n])).map
            (fun pf => joinPath pf.1), k ∉ cntKeys m.folders.size.sizes :=
          fun k hk => hdm k (List.mem_append_left _ hk)
        have hdmB : ∀ k ∈ (foldersWithPathsList rest path).map
            (fun pf => joinPath pf.1), k ∉ cntKeys m.folders.size.sizes :=
          fun k hk => hdm k (List.mem_append_right _ hk)
        have hdfA : ∀ k ∈ (foldersWithPaths (.fd n c u d p cnt) (path ++ [n])).map
            (fun pf => joinPath pf.1), k ∉ cntKeys fsizes :=
          fun k hk => hdf k (List.mem_append_left _ hk)
        have hdfB : ∀ k ∈ (foldersWithPathsList rest path).map
            (fun pf => joinPath pf.1), k ∉ cntKeys fsizes :=
          fun k hk => hdf k (List.mem_append_right _ hk)
        -- head facts for the folder itself
        have hfidA : joinPath (path ++ [n]) ∈ (foldersWithPaths (.fd n c u d p cnt)
            (path ++ [n])).map (fun pf => joinPath pf.1) := by
          rw [hfwphd]
          exact List.mem_cons_self _ _
        rw [hfwphd] at hndA
        rw [List.map_cons, List.nodup_cons] at hndA
        obtain ⟨hfidTail, hndTail⟩ := hndA
        -- the inner call made by gather_metrics_rec
        have hGF : (gather_metrics_rec (.fd n c u d p cnt) (path ++ [n]) m).2 =
            (foldersWithPaths (.fd n c u d p cnt) (path ++ [n])).map fsEntry ∧
            (gather_metrics_rec (.fd n c u d p cnt) (path ++ [n]) m).1.folders.size.sizes =
              m.folders.size.sizes ++
                (foldersWithPaths (.fd n c u d p cnt) (path ++ [n])).map szEntry := by
          rw [gather_metrics_rec_fd_eq]
          have hmsz : ((bookmarksOf cnt).foldl gatherBookmark
              (let m1 := { m with folders.max_depth := max m.folders.max_depth d }
               let m2 := { m1 with
                 folders.core.count := m1.folders.core.count + 1,
                 folders.core.items := insert (joinPath (path ++ [n])) m1.folders.core.items,
                 folders.size.sizes :=
                   cntSet m1.folders.size.sizes (joinPath (path ++ [n])) cnt.length,
                 folders.size.max_size := max m1.folders.size.max_size cnt.length,
                 folders.size.min_size := min m1.folders.size.min_size cnt.length }
               { m2 with bookmarks.core.count :=
                  m2.bookmarks.core.count + (bookmarksOf cnt).length })).folders.size.sizes =
              cntSet m.folders.size.sizes (joinPath (path ++ [n])) cnt.length := by
            rw [foldl_gatherBookmark_folders]
          have hset : cntSet m.folders.size.sizes (joinPath (path ++ [n])) cnt.length =
              m.folders.size.sizes ++ [(joinPath (path ++ [n]), cnt.length)] :=
            cntSet_fresh _ _ _ (hdmA _ hfidA)
          have hinner := ih cnt (path ++ [n])
            ((bookmarksOf cnt).foldl gatherBookmark
              (let m1 := { m with folders.max_depth := max m.folders.max_depth d }
               let m2 := { m1 with
                 folders.core.count := m1.folders.core.count + 1,
                 folders.core.items := insert (joinPath (path ++ [n])) m1.folders.core.items,
                 folders.size.sizes :=
                   cntSet m1.folders.size.sizes (joinPath (path ++ [n])) cnt.length,
                 folders.size.max_size := max m1.folders.size.max_size cnt.length,
                 folders.size.min_size := min m1.folders.size.min_size cnt.length }
               { m2 with bookmarks.core.count :=
                  m2.bookmarks.core.count + (bookmarksOf cnt).length }))
            (cntSet [] (joinPath (path ++ [n])) (bookmarksOf cnt).length)
            hw2.1 hndTail ?_ ?_
          · obtain ⟨hin2, hin1⟩ := hinner
            constructor
            · rw [hin2, hfwphd, List.map_cons]
              rfl
            · rw [hin1, hmsz, hset, hfwphd, List.map_cons, List.append_assoc]
              rfl
          · intro k hk
            rw [hmsz, hset, cntKeys_append]
            intro hmem
            rcases List.mem_append.mp hmem with hm | hm
            · exact hdmA k (by rw [hfwphd, List.map_cons]; exact List.mem_cons_of_mem _ hk) hm
            · simp only [cntKeys, List.map_cons, List.map_nil, List.mem_singleton] at hm
              exact hfidTail (hm ▸ hk)
          · intro k hk
            have hone : cntSet ([] : List (String × Nat)) (joinPath (path ++ [n]))
                (bookmarksOf cnt).length = [(joinPath (path ++ [n]), (bookmarksOf cnt).length)] := rfl
            rw [hone]
            simp only [cntKeys, List.map_cons, List.map_nil, List.mem_singleton]
            intro hm
            exact hfidTail (hm ▸ hk)
        -- now the outer recursion over `rest`
        rw [gatherSubfolders_fd_eq]
        obtain ⟨hsub2, hsub1⟩ := hGF
        have hupd : cntUpdate fsizes (gather_metrics_rec (.fd n c u d p cnt)
            (path ++ [n]) m).2 = fsizes ++
              (foldersWithPaths (.fd n c u d p cnt) (path ++ [n])).map fsEntry := by
          rw [hsub2]
          apply cntUpdate_fresh
          · intro k hk
            rw [cntKeys_map_fsEntry] at hk
            exact hdfA k hk
          · rw [cntKeys_map_fsEntry, hfwphd, List.map_cons]
            exact List.nodup_cons.mpr ⟨hfidTail, hndTail⟩
        have hrest := ih rest path (gather_metrics_rec (.fd n c u d p cnt) (path ++ [n]) m).1
          (fsizes ++ (foldersWithPaths (.fd n c u d p cnt) (path ++ [n])).map fsEntry)
          hw2.2 hndB ?_ ?_
        · obtain ⟨hr2, hr1⟩ := hrest
          rw [hupd]
          constructor
          · rw [hr2, List.map_append, List.append_assoc]
          · rw [hr1, hsub1, List.map_append, List.append_assoc]
        · intro k hk
          rw [hsub1, cntKeys_append]
          intro hmem
          rcases List.mem_append.mp hmem with hm | hm
          · exact hdmB k hk hm
          · rw [cntKeys_map_szEntry] at hm
            exact hdisjAB hm hk
        · intro k hk
          rw [cntKeys_append]
          intro hmem
          rcases List.mem_append.mp hmem with hm | hm
          · exact hdfB k hk hm
          · rw [cntKeys_map_fsEntry] at hm
            exact hdisjAB hm hk

/-- Top-level form of the gatherer induction for one folder node. -/
theorem gatherRec_entries (n : String) (c u : Int) (d : Nat) (p : List String)
    (cnt : List Item) (path : List String) (m : Metrics)
    (hnd : ((foldersWithPaths (.fd n c u d p cnt) path).map
      (fun pf => joinPath pf.1)).Nodup)
    (hdm : ∀ k ∈ (foldersWithPaths (.fd n c u d p cnt) path).map
      (fun pf => joinPath pf.1), k ∉ cntKeys m.folders.size.sizes) :
    (gather_metrics_rec (.fd n c u d p cnt) path m).2 =
      (foldersWithPaths (.fd n c u d p cnt) path).map fsEntry ∧
    (gather_metrics_rec (.fd n c u d p cnt) path m).1.folders.size.sizes =
      m.folders.size.sizes ++ (foldersWithPaths (.fd n c u d p cnt) path).map szEntry := by
  have hfwphd : foldersWithPaths (.fd n c u d p cnt) path =
      (path, .fd n c u d p cnt) :: foldersWithPathsList cnt path := rfl
  have hfidA : joinPath path ∈ (foldersWithPaths (.fd n c u d p cnt) path).map
      (fun pf => joinPath pf.1) := by
    rw [hfwphd]
    exact List.mem_cons_self _ _
  rw [hfwphd] at hnd
  rw [List.map_cons, List.nodup_cons] at hnd
  obtain ⟨hfidTail, hndTail⟩ := hnd
  rw [gather_metrics_rec_fd_eq]
  have hmsz : ((bookmarksOf cnt).foldl gatherBookmark
      (let m1 := { m with folders.max_depth := max m.folders.max_depth d }
       let m2 := { m1 with
         folders.core.count := m1.folders.core.count + 1,
         folders.core.items := insert (joinPath path) m1.folders.core.items,
         folders.size.sizes :=
           cntSet m1.folders.size.sizes (joinPath path) cnt.length,
         folders.size.max_size := max m1.folders.size.max_size cnt.length,
         folders.size.min_size := min m1.folders.size.min_size cnt.length }
       { m2 with bookmarks.core.count :=
          m2.bookmarks.core.count + (bookmarksOf cnt).length })).folders.size.sizes =
      cntSet m.folders.size.sizes (joinPath path) cnt.length := by
    rw [foldl_gatherBookmark_folders]
  have hset : cntSet m.folders.size.sizes (joinPath path) cnt.length =
      m.folders.size.sizes ++ [(joinPath path, cnt.length)] :=
    cntSet_fresh _ _ _ (hdm _ hfidA)
  have hinner := gatherSubs_entries (listWeight cnt) cnt path
    ((bookmarksOf cnt).foldl gatherBookmark
      (let m1 := { m with folders.max_depth := max m.folders.max_depth d }
       let m2 := { m1 with
         folders.core.count := m1.folders.core.count + 1,
         folders.core.items := insert (joinPath path) m1.folders.core.items,
         folders.size.sizes :=
           cntSet m1.folders.size.sizes (joinPath path) cnt.length,
         folders.size.max_size := max m1.folders.size.max_size cnt.length,
         folders.size.min_size := min m1.folders.size.min_size cnt.length }
       { m2 with bookmarks.core.count :=
          m2.bookmarks.core.count + (bookmarksOf cnt).length }))
    (cntSet [] (joinPath path) (bookmarksOf cnt).length)
    (le_refl _) hndTail ?_ ?_
  · obtain ⟨hin2, hin1⟩ := hinner
    constructor
    · rw [hin2, hfwphd, List.map_cons]
      rfl
    · rw [hin1, hmsz, hset, hfwphd, List.map_cons, List.append_assoc]
      rfl
  · intro k hk
    rw [hmsz, hset, cntKeys_append]
    intro hmem
    rcases List.mem_append.mp hmem with hm | hm
    · exact hdm k (by rw [hfwphd, List.map_cons]; exact List.mem_cons_of_mem _ hk) hm
    · simp only [cntKeys, List.map_cons, List.map_nil, List.mem_singleton] at hm
      exact hfidTail (hm ▸ hk)
  · intro k hk
    have hone : cntSet ([] : List (String × Nat)) (joinPath path)
        (bookmarksOf cnt).length = [(joinPath path, (bookmarksOf cnt).length)] := rfl
    rw [hone]
    simp only [cntKeys, List.map_cons, List.map_nil, List.mem_singleton]
    intro hm
    exact hfidTail (hm ▸ hk)

/-- C9: for every tree whose `::`-joined folder paths are pairwise
distinct, the `folder_sizes` histogram returned by the recursive
gatherer (and handed to `get_largest_and_smallest` for the folders
top/bottom-5 ranking) maps each folder's joined path to exactly its
count of direct `Bookmark` children, while `folders.sizes` maps that
same path to `len(content)`, the number of direct children of both
kinds. -/
theorem c9_folder_sizes (week : Item)
    (hnd : ((foldersWithPaths week [""]).map (fun pf => joinPath pf.1)).Nodup) :
    (gather_metrics_rec week [""] {}).2 =
      (foldersWithPaths week [""]).map fsEntry ∧
    (gather_metrics_rec week [""] {}).1.folders.size.sizes =
      (foldersWithPaths week [""]).map szEntry ∧
    (∀ pf ∈ foldersWithPaths week [""],
      cntGet (gather_metrics_rec week [""] {}).2 (joinPath pf.1) =
        some (directBookmarkCount pf.2) ∧
      cntGet (gather_metrics_rec week [""] {}).1.folders.size.sizes (joinPath pf.1) =
        some pf.2.contentOf.length) ∧
    (∀ m, gather_metrics week = Except.ok m →
      m.folders.size.top_n =
        (get_largest_and_smallest ((foldersWithPaths week [""]).map fsEntry) 5).1 ∧
      m.folders.size.bottom_n =
        (get_largest_and_smallest ((foldersWithPaths week [""]).map fsEntry) 5).2) := by
  have hmain : (gather_metrics_rec week [""] {}).2 =
      (foldersWithPaths week [""]).map fsEntry ∧
      (gather_metrics_rec week [""] {}).1.folders.size.sizes =
        (foldersWithPaths week [""]).map szEntry := by
    cases week with
    | bm b => exact ⟨rfl, rfl⟩
    | fd n c u d p cnt =>
      have h := gatherRec_entries n c u d p cnt [""] {} hnd ?_
      · exact ⟨h.1, by rw [h.2]; rfl⟩
      · intro k _ hk
        exact absurd hk (List.not_mem_nil k)
  obtain ⟨h2, h1⟩ := hmain
  refine ⟨h2, h1, ?_, ?_⟩
  · intro pf hpf
    constructor
    · rw [h2]
      apply cntGet_of_mem_nodup
      · have : fsEntry pf ∈ (foldersWithPaths week [""]).map fsEntry :=
          List.mem_map_of_mem fsEntry hpf
        exact this
      · rw [cntKeys_map_fsEntry]
        exact hnd
    · rw [h1]
      apply cntGet_of_mem_nodup
      · have : szEntry pf ∈ (foldersWithPaths week [""]).map szEntry :=
          List.mem_map_of_mem szEntry hpf
        exact this
      · rw [cntKeys_map_szEntry]
        exact hnd
  · intro m hm
    simp only [gather_metrics] at hm
    split at hm
    · exact Except.noConfusion hm
    · split at hm
      · exact Except.noConfusion hm
      · rw [Except.ok.injEq] at hm
        subst hm
        constructor
        · show (get_largest_and_smallest (gather_metrics_rec week [""] {}).2 5).1 = _
          rw [h2]
        · show (get_largest_and_smallest (gather_metrics_rec week [""] {}).2 5).2 = _
          rw [h2]

/-- Witness for C9: the concrete two-level tree, with the hypothesis
checked by `decide`; the subfolder's entry in `folder_sizes` is its
direct-bookmark count 2 and its `folders.sizes` entry is its content
length 3. -/
theorem c9_folder_sizes_witness :
    directBookmarkCount treeC9wSub = 2 ∧ treeC9wSub.contentOf.length = 3 ∧
    (cntGet (gather_metrics_rec treeC9w [""] {}).2 (joinPath ["", "Sub"]) =
      some (directBookmarkCount treeC9wSub) ∧
     cntGet (gather_metrics_rec treeC9w [""] {}).1.folders.size.sizes
       (joinPath ["", "Sub"]) = some treeC9wSub.contentOf.length) :=
  ⟨by decide, by decide,
   (c9_folder_sizes treeC9w (by decide)).2.2.1 (["", "Sub"], treeC9wSub) (by decide)⟩

theorem sortNames_perm {l₁ l₂ : List String} (h : l₁.Perm l₂) :
    sortNames l₁ = sortNames l₂ := by
  haveI : IsTotal String (fun a b => lexLe a.data b.data = true) :=
    ⟨fun a b => lexLe_total a.data b.data⟩
  haveI : IsTrans String (fun a b => lexLe a.data b.data = true) :=
    ⟨fun _ _ _ h1 h2 => lexLe_trans h1 h2⟩
  haveI : IsAntisymm String (fun a b => lexLe a.data b.data = true) :=
    ⟨fun _ _ h1 h2 => string_lexLe_antisymm h1 h2⟩
  exact List.eq_of_perm_of_sorted
    (((l₁.perm_insertionSort _).trans h).trans (l₂.perm_insertionSort _).symm)
    (List.sorted_insertionSort _ l₁) (List.sorted_insertionSort _ l₂)

theorem rankGroups_shift (k : Nat) :
    ∀ (gs : List (List (String × Nat))) (b : Nat),
      rankGroups (b + k) gs = (rankGroups b gs).map (fun t => (t.1 + k, t.2)) := by
  intro gs
  induction gs with
  | nil => intro b; rfl
  | cons g gs ih =>
    intro b
    cases g with
    | nil =>
      show rankGroups (b + k) gs = (rankGroups b gs).map _
      exact ih b
    | cons p g' =>
      obtain ⟨nm, sz⟩ := p
      show ((b + k, sz, _) : Nat × Nat × List String) :: rankGroups (b + k + _) gs =
        ((b, sz, _) :: rankGroups (b + _) gs).map (fun t => (t.1 + k, t.2))
      rw [List.map_cons]
      have : b + k + ((nm, sz) :: g').length = b + ((nm, sz) :: g').length + k := by omega
      rw [this, ih (b + ((nm, sz) :: g').length)]
      rfl

theorem dropWhile_count_lt (c : Nat) :
    ∀ (l : List (String × Nat)),
      l.Pairwise (fun a b => b.2 ≤ a.2) → (∀ p ∈ l, p.2 ≤ c) →
      ∀ p ∈ l.dropWhile (fun q => decide (q.2 = c)), p.2 < c := by
  intro l
  induction l with
  | nil => intro _ _ p hp; simp at hp
  | cons y ys ih =>
    intro hpw hle p hp
    rw [List.pairwise_cons] at hpw
    by_cases hy : y.2 = c
    · rw [List.dropWhile_cons_of_pos (by simp [hy])] at hp
      exact ih hpw.2 (fun q hq => le_of_le_of_eq (hpw.1 q hq) hy) p hp
    · rw [List.dropWhile_cons_of_neg (by simp [hy])] at hp
      rcases List.mem_cons.mp hp with h | h
      · subst h
        exact lt_of_le_of_ne (hle p (List.mem_cons_self _ _)) hy
      · exact lt_of_le_of_lt (hpw.1 p h)
          (lt_of_le_of_ne (hle y (List.mem_cons_self _ _)) hy)

theorem takeLoop_eq_specTake (n : Nat) :
    ∀ (gs : List (Nat × Nat × List String)) (cnt : Nat), cnt < n →
      takeLoop n cnt gs = specTake (n - cnt) gs := by
  intro gs
  induction gs with
  | nil => intro cnt _; rfl
  | cons g gs ih =>
    intro cnt hcnt
    show (if cnt < n then
        g :: (if cnt + g.2.2.length ≥ n then [] else takeLoop n (cnt + g.2.2.length) gs)
      else []) = g :: (if n - cnt ≤ g.2.2.length then [] else specTake (n - cnt - g.2.2.length) gs)
    rw [if_pos hcnt]
    by_cases hb : cnt + g.2.2.length ≥ n
    · rw [if_pos hb, if_pos (by omega)]
    · rw [if_neg hb, if_neg (by omega), ih (cnt + g.2.2.length) (by omega)]
      have h : n - cnt - g.2.2.length = n - (cnt + g.2.2.length) := by omega
      rw [h]

theorem runs_cons_eq (x : String × Nat) (xs : List (String × Nat)) :
    runs (x :: xs) =
      match runs xs with
      | [] => [[x]]
      | [] :: gs => [x] :: [] :: gs
      | (y :: g) :: gs =>
        if x.2 = y.2 then (x :: y :: g) :: gs else [x] :: (y :: g) :: gs := rfl

theorem runs_sorted_eq (x : String × Nat) (xs : List (String × Nat))
    (hs : (x :: xs).Pairwise (fun a b => b.2 ≤ a.2)) :
    runs (x :: xs) =
      (x :: xs.takeWhile (fun q => decide (q.2 = x.2))) ::
        runs (xs.dropWhile (fun q => decide (q.2 = x.2))) := by
  induction xs generalizing x with
  | nil => rfl
  | cons y ys ih =>
    rw [List.pairwise_cons] at hs
    have hr := ih y (hs.2)
    rw [runs_cons_eq, hr]
    dsimp only
    by_cases h : x.2 = y.2
    · rw [if_pos h]
      rw [List.takeWhile_cons_of_pos (by simp [h]),
          List.dropWhile_cons_of_pos (by simp [h])]
      have hpred : (fun q : String × Nat => decide (q.2 = x.2)) =
          (fun q : String × Nat => decide (q.2 = y.2)) := by
        funext q
        rw [h]
      rw [hpred]
    · rw [if_neg h]
      rw [List.takeWhile_cons_of_neg (by simp; exact fun hc => h hc.symm),
          List.dropWhile_cons_of_neg (by simp; exact fun hc => h hc.symm)]
      rw [hr]

theorem specCounts_cons_sorted (x : String × Nat) (xs : List (String × Nat))
    (hs : (x :: xs).Pairwise (fun a b => b.2 ≤ a.2)) :
    specCounts (x :: xs) =
      x.2 :: specCounts (xs.dropWhile (fun q => decide (q.2 = x.2))) := by
  haveI : IsTotal ℕ (fun a b : ℕ => b ≤ a) := ⟨fun a b => le_total b a⟩
  haveI : IsTrans ℕ (fun a b : ℕ => b ≤ a) := ⟨fun _ _ _ h1 h2 => le_trans h2 h1⟩
  haveI : IsAntisymm ℕ (fun a b : ℕ => b ≤ a) := ⟨fun _ _ h1 h2 => le_antisymm h2 h1⟩
  rw [List.pairwise_cons] at hs
  have hR : ∀ p ∈ xs.dropWhile (fun q => decide (q.2 = x.2)), p.2 < x.2 :=
    dropWhile_count_lt x.2 xs hs.2 hs.1
  have hT : ∀ p ∈ xs.takeWhile (fun q => decide (q.2 = x.2)), p.2 = x.2 := by
    intro p hp
    have h := List.mem_takeWhile_imp hp
    simpa using h
  have hsplit : xs.takeWhile (fun q => decide (q.2 = x.2)) ++
      xs.dropWhile (fun q => decide (q.2 = x.2)) = xs :=
    List.takeWhile_append_dropWhile _ xs
  have hmemR : ∀ a ∈ ((xs.dropWhile (fun q => decide (q.2 = x.2))).map
      (fun p => p.2)).dedup, a < x.2 := by
    intro a ha
    rw [List.mem_dedup, List.mem_map] at ha
    obtain ⟨p, hp, hpa⟩ := ha
    exact hpa ▸ hR p hp
  apply List.eq_of_perm_of_sorted (r := fun a b : ℕ => b ≤ a)
  · refine (List.perm_insertionSort _ _).trans (List.Perm.trans ?_
      (List.Perm.cons x.2 (List.perm_insertionSort _ _).symm))
    rw [List.perm_ext_iff_of_nodup (List.nodup_dedup _) ?_]
    · intro a
      rw [List.mem_dedup, List.mem_cons, List.mem_dedup]
      constructor
      · intro ha
        rw [List.mem_map] at ha
        obtain ⟨p, hp, hpa⟩ := ha
        rcases List.mem_cons.mp hp with h | h
        · exact Or.inl (hpa ▸ h ▸ rfl)
        · rw [← hsplit, List.mem_append] at h
          rcases h with h | h
          · exact Or.inl (hpa ▸ hT p h)
          · exact Or.inr (List.mem_map.mpr ⟨p, h, hpa⟩)
      · intro ha
        rcases ha with h | h
        · exact List.mem_map.mpr ⟨x, List.mem_cons_self _ _, h.symm⟩
        · rw [List.mem_map] at h
          obtain ⟨p, hp, hpa⟩ := h
          exact List.mem_map.mpr
            ⟨p, List.mem_cons_of_mem _ ((List.dropWhile_sublist _).subset hp), hpa⟩
    · rw [List.nodup_cons]
      exact ⟨fun hc => lt_irrefl _ (hmemR _ hc), List.nodup_dedup _⟩
  · exact List.sorted_insertionSort _ _
  · rw [List.sorted_cons]
    constructor
    · intro b hb
      exact le_of_lt (hmemR b ((List.perm_insertionSort _ _).subset hb))
    · exact List.sorted_insertionSort _ _

theorem rankGroups_cons_eq (b : Nat) (n : String) (sz : Nat)
    (g : List (String × Nat)) (gs : List (List (String × Nat))) :
    rankGroups b (((n, sz) :: g) :: gs) =
      (b, sz, sortNames (((n, sz) :: g).map (fun p => p.1))) ::
        rankGroups (b + ((n, sz) :: g).length) gs := rfl

theorem rankGroups_runs_sorted :
    ∀ (k : Nat) (s : List (String × Nat)), s.length ≤ k →
      s.Pairwise (fun a b => b.2 ≤ a.2) →
      rankGroups 1 (runs s) = specGroups s := by
  intro k
  induction k with
  | zero =>
    intro s hlen _
    have hnil : s = [] := List.length_eq_zero.mp (Nat.le_zero.mp hlen)
    subst hnil
    rfl
  | succ k ih =>
    intro s hlen hs
    cases s with
    | nil => rfl
    | cons x xs =>
      obtain ⟨nm, cv⟩ := x
      have hcons := List.pairwise_cons.mp hs
      have hT : ∀ p ∈ xs.takeWhile (fun q => decide (q.2 = cv)), p.2 = cv := by
        intro p hp
        have h := List.mem_takeWhile_imp hp
        simpa using h
      have hR : ∀ p ∈ xs.dropWhile (fun q => decide (q.2 = cv)), p.2 < cv :=
        dropWhile_count_lt cv xs hcons.2 hcons.1
      have hsplit : xs.takeWhile (fun q => decide (q.2 = cv)) ++
          xs.dropWhile (fun q => decide (q.2 = cv)) = xs :=
        List.takeWhile_append_dropWhile _ xs
      have hpwR : (xs.dropWhile (fun q => decide (q.2 = cv))).Pairwise
          (fun a b => b.2 ≤ a.2) :=
        List.Pairwise.sublist (List.dropWhile_sublist _) hcons.2
      have hlenR : (xs.dropWhile (fun q => decide (q.2 = cv))).length ≤ k := by
        have h1 : (xs.dropWhile (fun q => decide (q.2 = cv))).length ≤ xs.length :=
          List.Sublist.length_le (List.dropWhile_sublist _)
        simp only [List.length_cons] at hlen
        omega
      have ihR := ih (xs.dropWhile (fun q => decide (q.2 = cv))) hlenR hpwR
      rw [runs_sorted_eq (nm, cv) xs hs, rankGroups_cons_eq,
        rankGroups_shift (((nm, cv) :: xs.takeWhile
          (fun q => decide (q.2 = cv))).length) (runs _) 1, ihR]
      simp only [specGroups]
      rw [specCounts_cons_sorted (nm, cv) xs hs, List.map_cons]
      dsimp only
      have hGT : ((nm, cv) :: xs).filter (fun p => decide (cv < p.2)) = [] := by
        rw [List.filter_eq_nil_iff]
        intro p hp
        rcases List.mem_cons.mp hp with h | h
        · subst h; simp
        · simp only [decide_eq_true_eq]
          exact not_lt.mpr (hcons.1 p h)
      have hEQ : ((nm, cv) :: xs).filter (fun p => decide (p.2 = cv)) =
          (nm, cv) :: xs.takeWhile (fun q => decide (q.2 = cv)) := by
        rw [List.filter_cons, if_pos (by simp)]
        conv_lhs => rw [← hsplit]
        rw [List.filter_append,
          List.filter_eq_self.mpr (fun p hp => by simp [hT p hp]),
          List.filter_eq_nil_iff.mpr
            (fun p hp => by simp [Nat.ne_of_lt (hR p hp)]),
          List.append_nil]
      congr 1
      · simp only [hGT, hEQ, List.length_nil, List.map_cons]
      · rw [List.map_map]
        apply List.map_congr_left
        intro c' hc'
        have hc'lt : c' < cv := by
          have hmem : c' ∈ (xs.dropWhile (fun q => decide (q.2 = cv))).map
              (fun p => p.2) := by
            have h := (List.perm_insertionSort _ _).subset hc'
            rw [List.mem_dedup] at h
            exact h
          rw [List.mem_map] at hmem
          obtain ⟨p, hp, hpc⟩ := hmem
          exact hpc ▸ hR p hp
        have hGT' : ((nm, cv) :: xs).filter (fun p => decide (c' < p.2)) =
            (nm, cv) :: (xs.takeWhile (fun q => decide (q.2 = cv)) ++
              (xs.dropWhile (fun q => decide (q.2 = cv))).filter
                (fun p => decide (c' < p.2))) := by
          rw [List.filter_cons, if_pos (by simp [hc'lt])]
          conv_lhs => rw [← hsplit]
          rw [List.filter_append,
            List.filter_eq_self.mpr (fun p hp => by simp [hT p hp, hc'lt])]
        have hEQ' : ((nm, cv) :: xs).filter (fun p => decide (p.2 = c')) =
            (xs.dropWhile (fun q => decide (q.2 = cv))).filter
              (fun p => decide (p.2 = c')) := by
          rw [List.filter_cons, if_neg (by simp [Nat.ne_of_gt hc'lt])]
          conv_lhs => rw [← hsplit]
          rw [List.filter_append,
            List.filter_eq_nil_iff.mpr
              (fun p hp => by simp [hT p hp, Nat.ne_of_gt hc'lt]),
            List.nil_append]
        simp only [Function.comp_apply, hGT', hEQ', Prod.mk.injEq,
          List.length_cons, List.length_append]
        constructor
        · omega
        · trivial

theorem specGroups_perm {l₁ l₂ : List (String × Nat)} (h : l₁.Perm l₂) :
    specGroups l₁ = specGroups l₂ := by
  haveI : IsTotal ℕ (fun a b : ℕ => b ≤ a) := ⟨fun a b => le_total b a⟩
  haveI : IsTrans ℕ (fun a b : ℕ => b ≤ a) := ⟨fun _ _ _ h1 h2 => le_trans h2 h1⟩
  haveI : IsAntisymm ℕ (fun a b : ℕ => b ≤ a) := ⟨fun _ _ h1 h2 => le_antisymm h2 h1⟩
  have hc : specCounts l₁ = specCounts l₂ :=
    List.eq_of_perm_of_sorted
      ((List.perm_insertionSort _ _).trans
        (List.Perm.trans ((h.map _).dedup) (List.perm_insertionSort _ _).symm))
      (List.sorted_insertionSort _ _) (List.sorted_insertionSort _ _)
  simp only [specGroups]
  rw [hc]
  apply List.map_congr_left
  intro c _
  have h1 : (l₁.filter (fun p => decide (c < p.2))).length =
      (l₂.filter (fun p => decide (c < p.2))).length :=
    (h.filter _).length_eq
  have h2 : sortNames ((l₁.filter (fun p => decide (p.2 = c))).map (fun p => p.1)) =
      sortNames ((l₂.filter (fun p => decide (p.2 = c))).map (fun p => p.1)) :=
    sortNames_perm ((h.filter _).map _)
  rw [h1, h2]

/-- C1: for every non-empty size histogram and every `n ≥ 1`,
`get_largest_and_smallest` groups entries by equal count with
competition ranking (each group's rank is 1 plus the number of names in
strictly larger-count groups) and lexicographically sorted names; the
top list accumulates whole groups in descending count order until the
cumulative name count reaches or exceeds `n`, keeping the overshooting
tie group in full, and the bottom list accumulates symmetrically from
the smallest count and is returned in ascending-rank order; in
particular the documented `{a:10,b:10,c:5,d:5,e:1}`, `n = 2` example
returns `([(1,10,[a,b])], [(3,5,[c,d]),(5,1,[e])])` and the empty
histogram returns `([], [])`. -/
theorem c1_rank_aggregator (sizes : List (String × Nat)) (n : Nat)
    (hne : sizes ≠ []) (hn : 1 ≤ n) :
    get_largest_and_smallest sizes n =
      (specTake n (specGroups sizes),
       (specTake n (specGroups sizes).reverse).reverse) ∧
    get_largest_and_smallest
        [("a", 10), ("b", 10), ("c", 5), ("d", 5), ("e", 1)] 2 =
      ([(1, 10, ["a", "b"])], [(3, 5, ["c", "d"]), (5, 1, ["e"])]) ∧
    get_largest_and_smallest [] n = ([], []) := by
  refine ⟨?_, by decide, rfl⟩
  haveI : IsTotal (String × Nat) (fun a b => b.2 ≤ a.2) :=
    ⟨fun a b => le_total b.2 a.2⟩
  haveI : IsTrans (String × Nat) (fun a b => b.2 ≤ a.2) :=
    ⟨fun _ _ _ h1 h2 => le_trans h2 h1⟩
  have hsorted : (sortDescBySize sizes).Pairwise (fun a b => b.2 ≤ a.2) :=
    List.sorted_insertionSort _ _
  have hperm : (sortDescBySize sizes).Perm sizes :=
    List.perm_insertionSort _ _
  have hmain := rankGroups_runs_sorted (sortDescBySize sizes).length
    (sortDescBySize sizes) (le_refl _) hsorted
  have hgs : specGroups (sortDescBySize sizes) = specGroups sizes :=
    specGroups_perm hperm
  simp only [get_largest_and_smallest]
  rw [if_neg hne, hmain, hgs,
    takeLoop_eq_specTake n (specGroups sizes) 0 hn,
    takeLoop_eq_specTake n (specGroups sizes).reverse 0 hn,
    Nat.sub_zero]

/-- Witness for C1: the theorem applied to the two-entry histogram
`{x:2, y:1}` with `n = 1`, hypotheses checked by `decide`. -/
theorem c1_rank_aggregator_witness :
    ([("x", 2), ("y", 1)] : List (String × Nat)) ≠ [] ∧ (1 : Nat) ≤ 1 ∧
    (get_largest_and_smallest [("x", 2), ("y", 1)] 1 =
      (specTake 1 (specGroups [("x", 2), ("y", 1)]),
       (specTake 1 (specGroups [("x", 2), ("y", 1)]).reverse).reverse) ∧
     get_largest_and_smallest
        [("a", 10), ("b", 10), ("c", 5), ("d", 5), ("e", 1)] 2 =
      ([(1, 10, ["a", "b"])], [(3, 5, ["c", "d"]), (5, 1, ["e"])]) ∧
     get_largest_and_smallest [] 1 = ([], [])) :=
  ⟨by decide, by decide,
   c1_rank_aggregator [("x", 2), ("y", 1)] 1 (by decide) (by decide)⟩
